import Mathlib

/-! Certificate-transparency log monitor: a shallow embedding.

The development embeds `ctl_monitor-lib/ctl_parsing.go` and
`ctl_monitor-lib/monitor.go`.

Conventions of the embedding.

* A Go `[]byte` is a `List Nat` whose elements are below 256; a Go `string`
  is a Lean `String` (the strings the program handles are base64 text, decimal
  numbers and host names).
* `uint16`, `uint32`, `uint64` are `Nat` with an explicit `% 2 ^ w` at every
  operation that can wrap; `int` indices are `Int`.
* A Go call ends in one of the ways listed in `Res`.
* The remote log server, the `crypto/x509` parser and the `encoding/base64`
  codec are not part of the repository.  The server and the certificate parser
  are parameters of the functions that call them; the base64 codec is written
  out after RFC 4648 and the behaviour of Go's `base64.StdEncoding`.
-/

namespace CTMonitor

/-! ## Results of a call -/

/-- How a Go call of the program can end.  `ok` is a normal return with a nil
error, `err` a normal return with a non-nil `error`, `crash` a run-time panic
(nil dereference, slice out of range), `fatal` a `log.Fatalln`, which exits the
process.  `fuel` is not a behaviour of the program: it is the answer of a loop
of the model that was not given enough iterations. -/
inductive Res (α : Type) where
  | ok (a : α)
  | err (msg : String)
  | crash
  | fatal
  | fuel
  deriving DecidableEq, Repr

/-- Whether a call returned normally with a nil error. -/
def Res.isOk {α : Type} : Res α → Bool
  | .ok _ => true
  | _ => false

/-! ## `encoding/base64`, `StdEncoding` -/

/-- The alphabet of RFC 4648, table 1 (`encodeStd` in Go's `encoding/base64`). -/
def encodeStd : List Char :=
  "ABCDEFGHIJKLMNOPQRSTUVWXYZabcdefghijklmnopqrstuvwxyz0123456789+/".data

/-- The character of a 6-bit value. -/
def encodeChar (n : Nat) : Char := encodeStd.getD n 'A'

/-- The 6-bit value of a character of the alphabet (`decodeMap` in Go), `none`
for every other character. -/
def decodeMap (c : Char) : Option Nat :=
  if encodeStd.indexOf c < 64 then some (encodeStd.indexOf c) else none

/-- The characters `EncodeToString` produces: three bytes give four characters,
a final group of one or two bytes is padded with `=`. -/
def encodeChars : List Nat → List Char
  | [] => []
  | [a] => [encodeChar (a / 4), encodeChar (a % 4 * 16), '=', '=']
  | [a, b] =>
    [encodeChar (a / 4), encodeChar (a % 4 * 16 + b / 16), encodeChar (b % 16 * 4), '=']
  | a :: b :: c :: rest =>
    encodeChar (a / 4) :: encodeChar (a % 4 * 16 + b / 16) ::
      encodeChar (b % 16 * 4 + c / 64) :: encodeChar (c % 64) :: encodeChars rest

/-- Model of `base64.StdEncoding.EncodeToString`. -/
def base64Encode (b : List Nat) : String := String.mk (encodeChars b)

/-- The quanta of `DecodeString` on text without line breaks: four characters
give three bytes; only the last quantum may end in `=` or `==`; padding is
required and nothing may follow it.  Bits of the last character that do not
belong to a byte are dropped (the encoding is not strict). -/
def decodeQuanta : List Char → Res (List Nat)
  | [] => .ok []
  | c0 :: c1 :: c2 :: c3 :: rest =>
    match decodeMap c0, decodeMap c1 with
    | some s0, some s1 =>
      match decodeMap c2 with
      | some s2 =>
        match decodeMap c3 with
        | some s3 =>
          match decodeQuanta rest with
          | .ok bs =>
            .ok ((s0 * 4 + s1 / 16) % 256 :: (s1 * 16 + s2 / 4) % 256 ::
              (s2 * 64 + s3) % 256 :: bs)
          | r => r
        | none =>
          if c3 = '=' ∧ rest = [] then
            .ok [(s0 * 4 + s1 / 16) % 256, (s1 * 16 + s2 / 4) % 256]
          else .err "illegal base64 data"
      | none =>
        if c2 = '=' ∧ c3 = '=' ∧ rest = [] then .ok [(s0 * 4 + s1 / 16) % 256]
        else .err "illegal base64 data"
    | _, _ => .err "illegal base64 data"
  | _ => .err "illegal base64 data"

/-- Model of `base64.StdEncoding.DecodeString`: carriage returns and line feeds
are skipped wherever they stand, the rest is decoded quantum by quantum. -/
def base64Decode (s : String) : Res (List Nat) :=
  decodeQuanta (s.data.filter (fun c => c != '\r' && c != '\n'))

/-! ## `encoding/binary`, `BigEndian` -/

/-- Big-endian value of a byte sequence: `binary.BigEndian.Uint16`, `Uint32`
and `Uint64` on slices of 2, 4 and 8 bytes. -/
def bigEndian (bytes : List Nat) : Nat :=
  bytes.foldl (fun acc x => acc * 256 + x) 0

/-- The Go slice expression `b[lo:hi]` for `lo ≤ hi ≤ len(b)`. -/
def slice (b : List Nat) (lo hi : Nat) : List Nat := (b.drop lo).take (hi - lo)

/-! ## `ctl_parsing.go`: data -/

structure Signed_tree_head where
  Tree_size : Nat
  Timestamp : Nat
  Sha256_root_hash : String
  Tree_head_signature : String
  deriving DecidableEq, Repr

structure Raw_entry where
  Leaf_input : String
  Extra_data : String
  deriving DecidableEq, Repr

structure MerkleTreeLeaf where
  Version : Nat
  MerkleLeafType : Nat
  Timestamp : Nat
  LogEntryType : Nat
  Entry : String
  Extra_data : String
  deriving DecidableEq, Repr

structure certificate where
  Length : Nat
  CertData : List Nat
  deriving DecidableEq, Repr

/-- The map `LOG_ENTRY_TYPE_MAP`; a key that is absent reads as the empty
string. -/
def LOG_ENTRY_TYPE_MAP (t : Nat) : String :=
  if t = 0 then "X509" else if t = 1 then "PreCert" else ""

/-! ## `ctl_parsing.go`: decoding -/

/-- Model of `threeByteToUint32`: the first three bytes are copied behind one zero byte
and the four bytes are read big-endian.  `bytes[:3]` is a run-time panic on a
slice shorter than three bytes. -/
def threeByteToUint32 (bytes : List Nat) : Res Nat :=
  if bytes.length < 3 then .crash
  else .ok (bigEndian (0 :: bytes.take 3))

/-- Model of `parseLeafInput`. -/
def parseLeafInput (entry : Raw_entry) : Res MerkleTreeLeaf :=
  match base64Decode entry.Leaf_input with
  | .ok binary_decode =>
    if binary_decode.length < 12 then .err "Invalid entry"
    else
      .ok { Version := binary_decode.getD 0 0
            MerkleLeafType := binary_decode.getD 1 0
            Timestamp := bigEndian (slice binary_decode 2 10)
            LogEntryType := bigEndian (slice binary_decode 10 12)
            Entry := base64Encode (binary_decode.drop 12)
            Extra_data := entry.Extra_data }
  | .err e => .err e
  | .crash => .crash
  | .fatal => .fatal
  | .fuel => .fuel

/-- The part of `parseCertEntry` after the `switch`: read the 24-bit length,
compare it with the 32-bit truncation of the buffer length, cut the
certificate out. -/
def cutCertificate (cert_bytes : List Nat) : Res certificate :=
  match threeByteToUint32 (slice cert_bytes 0 3) with
  | .ok length =>
    if cert_bytes.length % 2 ^ 32 < (length + 3) % 2 ^ 32 then
      .err "Invalid certificate: too short"
    else if cert_bytes.length < (length + 3) % 2 ^ 32 then .crash
    else .ok { Length := length, CertData := slice cert_bytes 3 ((length + 3) % 2 ^ 32) }
  | .err e => .err e
  | .crash => .crash
  | .fatal => .fatal
  | .fuel => .fuel

/-- Model of `parseCertEntry`. -/
def parseCertEntry (leaf : MerkleTreeLeaf) : Res certificate :=
  if leaf.LogEntryType = 0 then
    match base64Decode leaf.Entry with
    | .ok binary_decode =>
      if binary_decode.length < 3 then .err "Invalid certificate: too short"
      else cutCertificate binary_decode
    | .err e => .err e
    | .crash => .crash
    | .fatal => .fatal
    | .fuel => .fuel
  else if leaf.LogEntryType = 1 then
    match base64Decode leaf.Extra_data with
    | .ok binary_decode =>
      if binary_decode.length < 3 then .err "Invalid certificate entry: too short"
      else cutCertificate binary_decode
    | .err e => .err e
    | .crash => .crash
    | .fatal => .fatal
    | .fuel => .fuel
  else .err "Unknown LogEntryType"

/-- Model of `getCommonname`.  `ParseCertificate` stands for `x509.ParseCertificate`:
`.ok cn` is a parsed certificate whose subject has common name `cn`, `.error e`
is the library's `(nil, e)`.  The source tests `err`, which is nil at that
point, and not `err2`; after a failed parse it therefore goes on to read
`decoded_cert.Subject.CommonName` through the nil pointer. -/
def getCommonname (ParseCertificate : List Nat → Except String String)
    (leaf_input : MerkleTreeLeaf) : Res String :=
  match parseCertEntry leaf_input with
  | .ok cert =>
    match ParseCertificate cert.CertData with
    | .ok cn => .ok cn
    | .error _ => .crash
  | .err e => .err e
  | .crash => .crash
  | .fatal => .fatal
  | .fuel => .fuel

/-! ## `monitor.go`: data -/

/-- The constant `REQUEST_SIZE`. -/
def REQUEST_SIZE : Nat := 1024

/-- A row of the table `certificates`.  The table's primary key is the four
columns together, so the table is a set of such rows. -/
structure db_row where
  timestamp : Nat
  common_name : String
  cert : String
  logentrytype : String
  deriving DecidableEq, Repr

/-- The monitor.  `database` is the content of the table `certificates`, a list
without repetition read as a set; `certificate_metrics` gives the value of the
counter of each pair of labels (hostname, log entry type), a counter that was
never touched reading 0.  The channel `Signal` plays no part in what follows
and is left out. -/
structure Monitor where
  ctl_host : String
  hostnames : List String
  tree_head : Signed_tree_head
  database : List db_row
  certificate_metrics : String → String → Nat
  VERBOSE : Bool
  NON_STRICT : Bool

/-! ## The log server -/

/-- The parsed query of the request URL (`url.Values`): the values recorded
under the keys `start` and `end`, each list in the order of the calls of
`Add`.  `Encode` followed by `URL.Query` gives these lists back. -/
structure Values where
  start : List Nat
  end_ : List Nat
  deriving DecidableEq, Repr

/-- The string `Values.Encode` builds: the keys in alphabetical order, the values
of one key in their order. -/
def Values.Encode (q : Values) : String :=
  "&".intercalate
    (q.end_.map (fun v => "end=" ++ toString v) ++ q.start.map (fun v => "start=" ++ toString v))

/-- The log server as `getEntries` sees it: the page of entries it answers to a
`get-entries` request with the given query, `none` when the transfer fails or
the body is not the expected JSON. -/
abbrev Server := Values → Option (List Raw_entry)

/-- What the model records of the traffic with the server: `calls`, the
arguments `(start, end)` of every call of `getEntries`, and `requests`, the query
of every HTTP request sent to `get-entries`, both in order. -/
structure Trace where
  calls : List (Nat × Nat)
  requests : List Values
  deriving DecidableEq, Repr

/-! ## `ctl_parsing.go`: fetching -/

/-- The `for start <= end` loop of `getEntries`.  `q` is the query left in
`req.URL.RawQuery` by the round before, `all` the entries received so far,
`reqs` the requests sent so far. -/
def getEntriesLoop (srv : Server) (end_ : Nat) :
    Nat → Values → Nat → List Raw_entry → List Values → Res (List Raw_entry) × List Values
  | 0, _, start, all, reqs => if start ≤ end_ then (.fuel, reqs) else (.ok all, reqs)
  | fuel + 1, q, start, all, reqs =>
    if start ≤ end_ then
      match srv ⟨q.start ++ [start], q.end_ ++ [end_]⟩ with
      | none => (.fatal, reqs ++ [⟨q.start ++ [start], q.end_ ++ [end_]⟩])
      | some entries =>
        getEntriesLoop srv end_ fuel ⟨q.start ++ [start], q.end_ ++ [end_]⟩
          ((start + entries.length) % 2 ^ 64) (all ++ entries)
          (reqs ++ [⟨q.start ++ [start], q.end_ ++ [end_]⟩])
    else (.ok all, reqs)

/-- Model of `getEntries`, with the requests it sent.  The request is created
once, before the loop, and `ctl_host` is taken to be a base URL that
`http.NewRequest` accepts and that has no query of its own, so the query is
empty when the loop starts.  The test `start < 0 || end < 0` is never true of
a `uint64`. -/
def getEntries (srv : Server) (fuel : Nat) (start end_ : Nat) :
    Res (List Raw_entry) × List Values :=
  if start > end_ then (.fatal, [])
  else getEntriesLoop srv end_ fuel ⟨[], []⟩ start [] []

/-! ## `monitor.go`: matching -/

/-- Model of `strings.Contains`: `substr` is a prefix of some suffix of `s`.  Go
compares bytes; on well-formed UTF-8 text that is the same relation on
characters. -/
def stringsContains (s substr : String) : Bool :=
  s.data.tails.any (fun t => substr.data.isPrefixOf t)

/-- The loop of `indexNonStrict` from position `i` on. -/
def indexNonStrictFrom (word : String) : List String → Int → String × Int
  | [], _ => ("", -1)
  | entry :: rest, i =>
    if stringsContains word entry then (entry, i) else indexNonStrictFrom word rest (i + 1)

/-- Model of `indexNonStrict`. -/
def indexNonStrict (array : List String) (word : String) : String × Int :=
  indexNonStrictFrom word array 0

/-- The loop of `index` from position `i` on. -/
def indexFrom (word : String) : List String → Int → Int
  | [], _ => -1
  | entry :: rest, i => if word = entry then i else indexFrom word rest (i + 1)

/-- Model of `index`. -/
def index (array : List String) (word : String) : Int := indexFrom word array 0

/-- Model of `min`, the minimum of two `uint64`. -/
def min64 (a b : Nat) : Nat := if a < b then a else b

/-! ## `monitor.go`: the store and the counters -/

/-- The statement `INSERT OR IGNORE INTO certificates ...` on a table whose key is
the whole row: the new table and the number of rows affected. -/
def insertOrIgnore (db : List db_row) (row : db_row) : List db_row × Nat :=
  if row ∈ db then (db, 0) else (db ++ [row], 1)

/-- The call `WithLabelValues(hostname, ty).Add(n)` on the counter vector. -/
def metricAdd (c : String → String → Nat) (hostname ty : String) (n : Nat) :
    String → String → Nat :=
  fun h t => if h = hostname ∧ t = ty then c h t + n else c h t

/-! ## `monitor.go`: scanning the log -/

/-- The body of the inner loop of `addEntries` for one entry.  `continue` is a
normal return with the monitor as it was.  `statement.Exec` hands the `uint64`
time stamp to `database/sql`, which converts it to `int64` and refuses a value
of `2^63` or more; the source drops that error, `results` is nil, and
`results.RowsAffected()` is a run-time panic.  Apart from that the statement is
taken to execute without a database error. -/
def processEntry (ParseCertificate : List Nat → Except String String) (m : Monitor)
    (entry : Raw_entry) : Res Monitor :=
  match parseLeafInput entry with
  | .ok leaf =>
    if leaf.LogEntryType ≠ 0 ∧ leaf.LogEntryType ≠ 1 then .ok m
    else
      match getCommonname ParseCertificate leaf with
      | .ok common_name =>
        let hi : String × Int :=
          if m.NON_STRICT then indexNonStrict m.hostnames common_name
          else (common_name, index m.hostnames common_name)
        if hi.2 ≠ -1 then
          if 2 ^ 63 ≤ leaf.Timestamp then .crash
          else
            let ra := insertOrIgnore m.database
              ⟨leaf.Timestamp, common_name, leaf.Entry, LOG_ENTRY_TYPE_MAP leaf.LogEntryType⟩
            .ok { m with
                  database := ra.1
                  certificate_metrics :=
                    metricAdd m.certificate_metrics hi.1 (LOG_ENTRY_TYPE_MAP leaf.LogEntryType)
                      ra.2 }
        else .ok m
      | .err _ => .ok m
      | .crash => .crash
      | .fatal => .fatal
      | .fuel => .fuel
  | .err _ => .ok m
  | .crash => .crash
  | .fatal => .fatal
  | .fuel => .fuel

/-- The inner loop of `addEntries`, `for _, entry := range entries`. -/
def processEntries (ParseCertificate : List Nat → Except String String) :
    Monitor → List Raw_entry → Res Monitor
  | m, [] => .ok m
  | m, entry :: rest =>
    match processEntry ParseCertificate m entry with
    | .ok m1 => processEntries ParseCertificate m1 rest
    | r => r

/-- The outer loop of `addEntries`, `for ; start <= max; start += REQUEST_SIZE`. -/
def addEntriesLoop (ParseCertificate : List Nat → Except String String) (srv : Server)
    (gfuel : Nat) (max : Nat) : Nat → Nat → Monitor → Trace → Res Monitor × Trace
  | 0, start, m, t => if start ≤ max then (.fuel, t) else (.ok m, t)
  | fuel + 1, start, m, t =>
    if start ≤ max then
      match getEntries srv gfuel start (min64 ((start + REQUEST_SIZE) % 2 ^ 64) max) with
      | (.ok entries, reqs) =>
        match processEntries ParseCertificate m entries with
        | .ok m1 =>
          addEntriesLoop ParseCertificate srv gfuel max fuel ((start + REQUEST_SIZE) % 2 ^ 64) m1
            ⟨t.calls ++ [(start, min64 ((start + REQUEST_SIZE) % 2 ^ 64) max)], t.requests ++ reqs⟩
        | r =>
          (r, ⟨t.calls ++ [(start, min64 ((start + REQUEST_SIZE) % 2 ^ 64) max)],
            t.requests ++ reqs⟩)
      | (.err e, reqs) =>
        (.err e, ⟨t.calls ++ [(start, min64 ((start + REQUEST_SIZE) % 2 ^ 64) max)],
          t.requests ++ reqs⟩)
      | (.crash, reqs) =>
        (.crash, ⟨t.calls ++ [(start, min64 ((start + REQUEST_SIZE) % 2 ^ 64) max)],
          t.requests ++ reqs⟩)
      | (.fatal, reqs) =>
        (.fatal, ⟨t.calls ++ [(start, min64 ((start + REQUEST_SIZE) % 2 ^ 64) max)],
          t.requests ++ reqs⟩)
      | (.fuel, reqs) =>
        (.fuel, ⟨t.calls ++ [(start, min64 ((start + REQUEST_SIZE) % 2 ^ 64) max)],
          t.requests ++ reqs⟩)
    else (.ok m, t)

/-- Model of `Monitor.addEntries`.  The bound `max` is computed from the head the
monitor holds when the call is made; `Tree_size - 1` is a `uint64` subtraction.
`fuel` bounds the rounds of the outer loop and of each `getEntries`.  The
insert statement is taken to be prepared without a database error; what its
execution does is part of `processEntry`. -/
def addEntries (ParseCertificate : List Nat → Except String String) (srv : Server)
    (fuel : Nat) (m : Monitor) (start end_ : Nat) : Res Monitor × Trace :=
  addEntriesLoop ParseCertificate srv fuel
    (min64 ((m.tree_head.Tree_size + 2 ^ 64 - 1) % 2 ^ 64) end_) fuel start m ⟨[], []⟩

/-- Model of `Monitor.Check`.  `sth` is what `getSTH(m.ctl_host)` returns at this
call: the new head, or an error. -/
def Check (ParseCertificate : List Nat → Except String String) (srv : Server)
    (fuel : Nat) (sth : Except String Signed_tree_head) (m : Monitor) : Res Monitor × Trace :=
  match sth with
  | .error _ => (.ok m, ⟨[], []⟩)
  | .ok new_sth =>
    if new_sth.Tree_size ≠ m.tree_head.Tree_size then
      match addEntries ParseCertificate srv fuel m m.tree_head.Tree_size
        ((new_sth.Tree_size + 2 ^ 64 - 1) % 2 ^ 64) with
      | (.ok m1, t) => (.ok { m1 with tree_head := new_sth }, t)
      | r => r
    else (.ok m, ⟨[], []⟩)

/-- Model of `Monitor.buildDB`. -/
def buildDB (ParseCertificate : List Nat → Except String String) (srv : Server)
    (fuel : Nat) (m : Monitor) : Res Monitor × Trace :=
  addEntries ParseCertificate srv fuel m 0 ((m.tree_head.Tree_size + 2 ^ 64 - 1) % 2 ^ 64)

/-! ## `monitor.go`: the watch-list -/

/-- Model of `Monitor.addHostnames`.  The calls of `WithLabelValues` create the
two counters of the hostname when they do not exist and change no value, so
`certificate_metrics`, which reads a missing counter as 0, is as it was. -/
def addHostnames : Monitor → List String → Monitor
  | m, [] => m
  | m, entry :: rest =>
    addHostnames
      (if index m.hostnames entry = -1 then { m with hostnames := m.hostnames ++ [entry] }
        else m) rest

/-- The loop of `removeHostname`.  The `range` clause fixes the number of rounds
and the backing array when the loop starts; `arr` is that array over the
positions the loop visits, `len` the length `m.hostnames` has now, `i` the
index of the round and the first argument the number of rounds left.  In a round
whose entry equals `hostname`, `m.hostnames[i+1:]` is a run-time panic when
`i + 1` exceeds `len`; otherwise `append` moves the entries of positions
`i + 1` to `len - 1` one place down inside the array, the entry of position
`len - 1` stays where it is, and `m.hostnames` is one entry shorter. -/
def removeHostnameLoop (hostname : String) : Nat → Nat → List String → Nat → Res (List String)
  | 0, _, arr, len => .ok (arr.take len)
  | rounds + 1, i, arr, len =>
    if arr.getD i "" = hostname then
      if len < i + 1 then .crash
      else
        removeHostnameLoop hostname rounds (i + 1)
          (arr.take i ++ (arr.drop (i + 1)).take (len - (i + 1)) ++ arr.drop (len - 1))
          (len - 1)
    else removeHostnameLoop hostname rounds (i + 1) arr len

/-- Model of `Monitor.removeHostname`. -/
def removeHostname (m : Monitor) (hostname : String) : Res Monitor :=
  match removeHostnameLoop hostname m.hostnames.length 0 m.hostnames m.hostnames.length with
  | .ok hs => .ok { m with hostnames := hs }
  | .err e => .err e
  | .crash => .crash
  | .fatal => .fatal
  | .fuel => .fuel

/-- Model of `list_flags.Set`: the value of one more `--hostname` flag is appended. -/
def list_flags_Set (list : List String) (value : String) : List String := list ++ [value]

/-! ## `controller.go` -/

/-- The pieces of `strings.Split(s, ",")` still to come, `cur` being the piece
that is open. -/
def splitCommaFrom : List Char → List Char → List String
  | [], cur => [String.mk cur]
  | c :: cs, cur =>
    if c = ',' then String.mk cur :: splitCommaFrom cs [] else splitCommaFrom cs (cur ++ [c])

/-- Model of `strings.Split(s, ",")`: the pieces between the commas, one more
than there are commas. -/
def stringsSplitComma (s : String) : List String := splitCommaFrom s.data []

/-- Model of `Controller.AddHostname`, as it acts on the monitor: the request
variable `hostname` is split at the commas and the pieces are added. -/
def AddHostname (m : Monitor) (new_hostnames : String) : Monitor :=
  addHostnames m (stringsSplitComma new_hostnames)

/-! ## Quantities named by the specification, and example data -/

/-- The length prefix of a certificate blob as the specification words it: the
first three bytes read as a big-endian 24-bit unsigned integer. -/
def lengthPrefix (c : List Nat) : Nat :=
  65536 * c.getD 0 0 + 256 * c.getD 1 0 + c.getD 2 0

/-- The bytes of the example: version 0, leaf type 0, time stamp `0x186A0`, entry type 0,
then a four-byte entry. -/
def exampleLeafBytes : List Nat :=
  [0x00, 0x00, 0x00, 0x00, 0x00, 0x00, 0x00, 0x01, 0x86, 0xA0, 0x00, 0x00, 0x00, 0x00, 0x01, 0xFF]

/-- A blob of `2 ^ 32` zero bytes: its length prefix is 0. -/
def zeroBlob : List Nat := List.replicate (2 ^ 32) 0

/-- A blob with length prefix 1 followed by the single byte `0xFF`, which is not
a DER certificate. -/
def badCertBlob : List Nat := [0x00, 0x00, 0x01, 0xFF]

/-- A blob with length prefix 1, the certificate byte `0xFF` and one byte of
trailing padding. -/
def paddedCertBlob : List Nat := [0x00, 0x00, 0x01, 0xFF, 0x00]

/-- The requests `getEntries(start, end)` sends to the server `srv`.  The first
carries `start` and `end`.  After a request whose last `start` value is the
cursor `c` and which the server answers with a page of `k` entries, where
`c + k <= end`, the next request carries one more `start` value, the new cursor
`c + k`, and one more `end` value. -/
inductive Sent (srv : Server) (start end_ : Nat) : Values → Prop where
  | first : Sent srv start end_ ⟨[start], [end_]⟩
  | next (q : Values) (c : Nat) (page : List Raw_entry) :
      Sent srv start end_ q → srv q = some page → q.start.getLast? = some c →
      c + page.length ≤ end_ →
      Sent srv start end_ ⟨q.start ++ [c + page.length], q.end_ ++ [end_]⟩

/-- The substring relation of the specification: `sub` occurs inside `s`. -/
def IsSubstring (sub s : String) : Prop :=
  ∃ pre suf : List Char, s.data = pre ++ sub.data ++ suf

/-- A stand-in for `x509.ParseCertificate` in the examples: it accepts two byte
strings, as certificates with the common names shown, and rejects every other
input. -/
def exampleParseCertificate (der : List Nat) : Except String String :=
  if der = [0x30, 0x01] then .ok "watched.example.com"
  else if der = [0x30, 0x02] then .ok "other.example.org"
  else .error "x509: malformed certificate"

/-- An X509 entry with leaf time stamp 100000 whose certificate has the common name
`watched.example.com`. -/
def watchedEntry : Raw_entry :=
  ⟨base64Encode [0, 0, 0, 0, 0, 0, 0, 1, 0x86, 0xA0, 0, 0, 0, 0, 2, 0x30, 0x01], ""⟩

/-- An X509 entry with leaf time stamp 7 whose certificate has the common name
`other.example.org`. -/
def otherEntry : Raw_entry :=
  ⟨base64Encode [0, 0, 0, 0, 0, 0, 0, 0, 0, 7, 0, 0, 0, 0, 2, 0x30, 0x02], ""⟩

/-- An X509 entry with leaf time stamp `2^63` (bytes `80 00 00 00 00 00 00 00`)
whose certificate has the common name `watched.example.com`. -/
def farFutureEntry : Raw_entry :=
  ⟨base64Encode [0, 0, 0x80, 0, 0, 0, 0, 0, 0, 0, 0, 0, 0, 0, 2, 0x30, 0x01], ""⟩

/-- An X509 entry whose certificate blob `badCertBlob` is cut out without error
and is not a certificate. -/
def badEntry : Raw_entry :=
  ⟨base64Encode ([0, 0, 0, 0, 0, 0, 0, 0, 0, 9, 0, 0] ++ badCertBlob), ""⟩

/-- The leaf of `badEntry`. -/
def badLeaf : MerkleTreeLeaf := ⟨0, 0, 9, 0, base64Encode badCertBlob, ""⟩

/-- A log of 13 entries; the entry of index 11 is `watchedEntry`. -/
def exampleLog : List Raw_entry :=
  List.replicate 11 otherEntry ++ [watchedEntry, otherEntry]

/-- A server for `exampleLog` that never truncates: it answers the range given by
the first `start` and the first `end` value of the query. -/
def exampleServer : Server := fun q =>
  match q.start.head?, q.end_.head? with
  | some s, some e => some ((exampleLog.drop s).take (e + 1 - s))
  | _, _ => none

/-- A server that answers every request with one entry. -/
def oneEntryServer : Server := fun _ => some [otherEntry]

/-- A tree head of the given size. -/
def headOfSize (n : Nat) : Signed_tree_head := ⟨n, 0, "", ""⟩

/-- A strict monitor of `watched.example.com` whose head has the given size, with
an empty store and all counters at 0. -/
def exampleMonitor (n : Nat) : Monitor :=
  { ctl_host := "https://log.example/"
    hostnames := ["watched.example.com"]
    tree_head := headOfSize n
    database := []
    certificate_metrics := fun _ _ => 0
    VERBOSE := false
    NON_STRICT := false }

/-- A server whose every transfer fails. -/
def failingServer : Server := fun _ => none

/-- A server that never truncates, for a log all of whose entries are
`otherEntry`: it answers the range from the last `start` value to the last
`end` value of the query. -/
def fullServer : Server := fun q =>
  match q.start.getLast?, q.end_.getLast? with
  | some s, some e => some (List.replicate (e + 1 - s) otherEntry)
  | _, _ => none

/-- A non-strict monitor like `exampleMonitor` with the given watch-list. -/
def nonStrictMonitor (hostnames : List String) : Monitor :=
  { exampleMonitor 13 with hostnames := hostnames, NON_STRICT := true }

/-- What the inner loop of `addEntries` asks of the store for one entry, on a
watch-list `hostnames` in the mode `nonStrict`: nothing (`none`), or the row it
inserts together with the hostname that labels the counter; a matching entry
whose time stamp the statement refuses ends in the panic. -/
def entryMatch (ParseCertificate : List Nat → Except String String) (hostnames : List String)
    (nonStrict : Bool) (entry : Raw_entry) : Res (Option (db_row × String)) :=
  match parseLeafInput entry with
  | .ok leaf =>
    if leaf.LogEntryType ≠ 0 ∧ leaf.LogEntryType ≠ 1 then .ok none
    else
      match getCommonname ParseCertificate leaf with
      | .ok common_name =>
        let hi : String × Int :=
          if nonStrict then indexNonStrict hostnames common_name
          else (common_name, index hostnames common_name)
        if hi.2 ≠ -1 then
          if 2 ^ 63 ≤ leaf.Timestamp then .crash
          else
            .ok (some (⟨leaf.Timestamp, common_name, leaf.Entry,
              LOG_ENTRY_TYPE_MAP leaf.LogEntryType⟩, hi.1))
        else .ok none
      | .err _ => .ok none
      | .crash => .crash
      | .fatal => .fatal
      | .fuel => .fuel
  | .err _ => .ok none
  | .crash => .crash
  | .fatal => .fatal
  | .fuel => .fuel

/-- The insert of a row and the update of the counter labelled by `rh.2` and the
row's entry type, by the number of rows the insert added. -/
def storeMatch (m : Monitor) (rh : db_row × String) : Monitor :=
  { m with
    database := (insertOrIgnore m.database rh.1).1
    certificate_metrics :=
      metricAdd m.certificate_metrics rh.2 rh.1.logentrytype (insertOrIgnore m.database rh.1).2 }

/-! ## Facts about the base64 codec -/

theorem decodeMap_encodeChar : ∀ n, n < 64 → decodeMap (encodeChar n) = some n := by
  decide

theorem decodeMap_pad : decodeMap '=' = none := by decide

theorem encodeChar_keep : ∀ n, n < 64 →
    (encodeChar n != '\r' && encodeChar n != '\n') = true := by
  decide

theorem encodeChars_keep (b : List Nat) (hb : ∀ y ∈ b, y < 256) :
    ∀ ch ∈ encodeChars b, (ch != '\r' && ch != '\n') = true := by
  induction b using encodeChars.induct with
  | case1 => simp [encodeChars]
  | case2 a =>
    have ha : a < 256 := hb a (by simp)
    intro ch hch
    simp only [encodeChars, List.mem_cons, List.mem_singleton] at hch
    rcases hch with h | h | h | h | h
    · exact h ▸ encodeChar_keep _ (by omega)
    · exact h ▸ encodeChar_keep _ (by omega)
    · subst h; decide
    · subst h; decide
    · simp at h
  | case3 a b =>
    have ha : a < 256 := hb a (by simp)
    have hb2 : b < 256 := hb b (by simp)
    intro ch hch
    simp only [encodeChars, List.mem_cons, List.mem_singleton] at hch
    rcases hch with h | h | h | h | h
    · exact h ▸ encodeChar_keep _ (by omega)
    · exact h ▸ encodeChar_keep _ (by omega)
    · exact h ▸ encodeChar_keep _ (by omega)
    · subst h; decide
    · simp at h
  | case4 a b c rest ih =>
    have ha : a < 256 := hb a (by simp)
    have hb2 : b < 256 := hb b (by simp)
    have hc : c < 256 := hb c (by simp)
    intro ch hch
    simp only [encodeChars, List.mem_cons] at hch
    rcases hch with h | h | h | h | h
    · exact h ▸ encodeChar_keep _ (by omega)
    · exact h ▸ encodeChar_keep _ (by omega)
    · exact h ▸ encodeChar_keep _ (by omega)
    · exact h ▸ encodeChar_keep _ (by omega)
    · exact ih (fun y hy => hb y (by simp [hy])) ch h

theorem filter_encodeChars (b : List Nat) (hb : ∀ y ∈ b, y < 256) :
    (encodeChars b).filter (fun c => c != '\r' && c != '\n') = encodeChars b :=
  List.filter_eq_self.2 (encodeChars_keep b hb)

theorem decodeQuanta_encodeChars (b : List Nat) (hb : ∀ y ∈ b, y < 256) :
    decodeQuanta (encodeChars b) = .ok b := by
  induction b using encodeChars.induct with
  | case1 => rfl
  | case2 a =>
    have ha : a < 256 := hb a (by simp)
    simp only [encodeChars, decodeQuanta]
    rw [decodeMap_encodeChar _ (by omega), decodeMap_encodeChar _ (by omega)]
    simp only [decodeMap_pad, and_self, if_true]
    congr 2
    omega
  | case3 a b =>
    have ha : a < 256 := hb a (by simp)
    have hb2 : b < 256 := hb b (by simp)
    simp only [encodeChars, decodeQuanta]
    rw [decodeMap_encodeChar _ (by omega), decodeMap_encodeChar _ (by omega),
      decodeMap_encodeChar _ (by omega)]
    simp only [decodeMap_pad, and_self, if_true]
    have h1 : (a / 4 * 4 + (a % 4 * 16 + b / 16) / 16) % 256 = a := by omega
    have h2 : ((a % 4 * 16 + b / 16) * 16 + b % 16 * 4 / 4) % 256 = b := by omega
    rw [h1, h2]
  | case4 a b c rest ih =>
    have ha : a < 256 := hb a (by simp)
    have hb2 : b < 256 := hb b (by simp)
    have hc : c < 256 := hb c (by simp)
    simp only [encodeChars, decodeQuanta]
    rw [decodeMap_encodeChar _ (by omega), decodeMap_encodeChar _ (by omega),
      decodeMap_encodeChar _ (by omega), decodeMap_encodeChar _ (by omega),
      ih (fun y hy => hb y (by simp [hy]))]
    have h1 : (a / 4 * 4 + (a % 4 * 16 + b / 16) / 16) % 256 = a := by omega
    have h2 : ((a % 4 * 16 + b / 16) * 16 + (b % 16 * 4 + c / 64) / 4) % 256 = b := by omega
    have h3 : ((b % 16 * 4 + c / 64) * 64 + c % 64) % 256 = c := by omega
    simp only [h1, h2, h3]

/-- Decoding the standard encoding of a byte string gives the byte string back. -/
theorem base64Decode_base64Encode (b : List Nat) (hb : ∀ y ∈ b, y < 256) :
    base64Decode (base64Encode b) = .ok b := by
  unfold base64Decode base64Encode
  rw [filter_encodeChars b hb]
  exact decodeQuanta_encodeChars b hb

/-! ## Leaf decoding -/

theorem bigEndian_eight (a b c d e f g h : Nat) :
    bigEndian [a, b, c, d, e, f, g, h] =
      a * 2 ^ 56 + b * 2 ^ 48 + c * 2 ^ 40 + d * 2 ^ 32 + e * 2 ^ 24 + f * 2 ^ 16 + g * 2 ^ 8
        + h := by
  simp only [bigEndian, List.foldl]
  ring

theorem parseLeafInput_encoded (b : List Nat) (extra : String) (hb : ∀ y ∈ b, y < 256) :
    parseLeafInput ⟨base64Encode b, extra⟩ =
      if b.length < 12 then .err "Invalid entry"
      else .ok { Version := b.getD 0 0
                 MerkleLeafType := b.getD 1 0
                 Timestamp := bigEndian (slice b 2 10)
                 LogEntryType := bigEndian (slice b 10 12)
                 Entry := base64Encode (b.drop 12)
                 Extra_data := extra } := by
  simp only [parseLeafInput, base64Decode_base64Encode b hb]

/-- C2. For a raw entry whose `leaf_input` is the standard base64 encoding of the
byte string `b`, `parseLeafInput` succeeds exactly when `b` has at least 12
bytes, and then `Version` is `b[0]`, `MerkleLeafType` is `b[1]`, `Timestamp` is
the big-endian 64-bit value of `b[2..10)`, `LogEntryType` the big-endian 16-bit
value of `b[10..12)`, `Entry` the base64 encoding of `b[12..]` and `Extra_data`
the `extra_data` of the raw entry. -/
theorem parseLeafInput_spec (b : List Nat) (extra : String) (hb : ∀ y ∈ b, y < 256) :
    ((parseLeafInput ⟨base64Encode b, extra⟩).isOk = true ↔ 12 ≤ b.length) ∧
    (12 ≤ b.length →
      parseLeafInput ⟨base64Encode b, extra⟩ = .ok
        { Version := b.getD 0 0
          MerkleLeafType := b.getD 1 0
          Timestamp :=
            b.getD 2 0 * 2 ^ 56 + b.getD 3 0 * 2 ^ 48 + b.getD 4 0 * 2 ^ 40
              + b.getD 5 0 * 2 ^ 32 + b.getD 6 0 * 2 ^ 24 + b.getD 7 0 * 2 ^ 16
              + b.getD 8 0 * 2 ^ 8 + b.getD 9 0
          LogEntryType := b.getD 10 0 * 256 + b.getD 11 0
          Entry := base64Encode (b.drop 12)
          Extra_data := extra }) := by
  rw [parseLeafInput_encoded b extra hb]
  constructor
  · by_cases h : b.length < 12
    · simp only [h, if_true, Res.isOk]
      constructor
      · intro h0; exact absurd h0 (by decide)
      · intro h1; omega
    · simp only [h, if_false, Res.isOk, true_iff]
      omega
  · intro h12
    rw [if_neg (by omega)]
    match b, h12 with
    | b0 :: b1 :: b2 :: b3 :: b4 :: b5 :: b6 :: b7 :: b8 :: b9 :: b10 :: b11 :: rest, _ =>
      have e1 : slice (b0 :: b1 :: b2 :: b3 :: b4 :: b5 :: b6 :: b7 :: b8 :: b9 :: b10 :: b11
          :: rest) 2 10 = [b2, b3, b4, b5, b6, b7, b8, b9] := rfl
      have e2 : slice (b0 :: b1 :: b2 :: b3 :: b4 :: b5 :: b6 :: b7 :: b8 :: b9 :: b10 :: b11
          :: rest) 10 12 = [b10, b11] := rfl
      rw [e1, e2, bigEndian_eight]
      simp [bigEndian, List.getD]

theorem parseLeafInput_spec_witness :
    (∀ y ∈ exampleLeafBytes, y < 256) ∧ 12 ≤ exampleLeafBytes.length ∧
    parseLeafInput ⟨base64Encode exampleLeafBytes, "extra"⟩ = .ok
      { Version := 0, MerkleLeafType := 0, Timestamp := 100000, LogEntryType := 0,
        Entry := "AAAB/w==", Extra_data := "extra" } :=
  ⟨by decide, by decide,
    ((parseLeafInput_spec exampleLeafBytes "extra" (by decide)).2 (by decide)).trans
      (by decide)⟩

/-! ## Certificate extraction -/

theorem cutCertificate_eq (c : List Nat) (h3 : 3 ≤ c.length) (hc : ∀ y ∈ c, y < 256) :
    cutCertificate c =
      if c.length % 2 ^ 32 < lengthPrefix c + 3 then .err "Invalid certificate: too short"
      else .ok ⟨lengthPrefix c, (c.drop 3).take (lengthPrefix c)⟩ := by
  match c, h3 with
  | c0 :: c1 :: c2 :: rest, _ =>
    have h0 : c0 < 256 := hc c0 (by simp)
    have h1 : c1 < 256 := hc c1 (by simp)
    have h2 : c2 < 256 := hc c2 (by simp)
    have hs : slice (c0 :: c1 :: c2 :: rest) 0 3 = [c0, c1, c2] := rfl
    have hL : lengthPrefix (c0 :: c1 :: c2 :: rest) = 65536 * c0 + 256 * c1 + c2 := rfl
    have hbe : bigEndian (0 :: List.take 3 [c0, c1, c2]) = 65536 * c0 + 256 * c1 + c2 := by
      simp only [bigEndian, List.take, List.foldl]
      omega
    have hlen : [c0, c1, c2].length < 3 ↔ False := by simp
    simp only [cutCertificate, hs, threeByteToUint32, hlen, if_false, hbe, hL]
    have hmod : (65536 * c0 + 256 * c1 + c2 + 3) % 2 ^ 32 = 65536 * c0 + 256 * c1 + c2 + 3 := by
      apply Nat.mod_eq_of_lt
      omega
    rw [hmod]
    by_cases hlt : (c0 :: c1 :: c2 :: rest).length % 2 ^ 32 < 65536 * c0 + 256 * c1 + c2 + 3
    · simp only [hlt, if_true]
    · have hle : ¬ (c0 :: c1 :: c2 :: rest).length < 65536 * c0 + 256 * c1 + c2 + 3 := by
        have := Nat.mod_le (c0 :: c1 :: c2 :: rest).length (2 ^ 32)
        omega
      simp only [hlt, hle, if_false, slice, Nat.add_sub_cancel]

theorem parseCertEntry_x509_encoded (v t ts : Nat) (x : String) (c : List Nat)
    (hc : ∀ y ∈ c, y < 256) :
    parseCertEntry ⟨v, t, ts, 0, base64Encode c, x⟩ =
      if c.length < 3 then .err "Invalid certificate: too short"
      else if c.length % 2 ^ 32 < lengthPrefix c + 3 then .err "Invalid certificate: too short"
      else .ok ⟨lengthPrefix c, (c.drop 3).take (lengthPrefix c)⟩ := by
  simp only [parseCertEntry, if_true, base64Decode_base64Encode c hc]
  by_cases h : c.length < 3
  · simp only [h, if_true]
  · simp only [h, if_false]
    exact cutCertificate_eq c (by omega) hc

theorem parseCertEntry_precert_encoded (v t ts : Nat) (e : String) (c : List Nat)
    (hc : ∀ y ∈ c, y < 256) :
    parseCertEntry ⟨v, t, ts, 1, e, base64Encode c⟩ =
      if c.length < 3 then .err "Invalid certificate entry: too short"
      else if c.length % 2 ^ 32 < lengthPrefix c + 3 then .err "Invalid certificate: too short"
      else .ok ⟨lengthPrefix c, (c.drop 3).take (lengthPrefix c)⟩ := by
  have h10 : (1 : Nat) = 0 ↔ False := by decide
  simp only [parseCertEntry, h10, if_false, if_true, base64Decode_base64Encode c hc]
  by_cases h : c.length < 3
  · simp only [h, if_true]
  · simp only [h, if_false]
    exact cutCertificate_eq c (by omega) hc

theorem zeroBlob_length : zeroBlob.length = 2 ^ 32 := List.length_replicate _ _

theorem zeroBlob_bytes : ∀ y ∈ zeroBlob, y < 256 := by
  intro y hy
  have := List.eq_of_mem_replicate hy
  omega

theorem lengthPrefix_replicate_zero (n : Nat) : lengthPrefix (List.replicate (n + 3) 0) = 0 :=
  rfl

theorem zeroBlob_lengthPrefix : lengthPrefix zeroBlob = 0 := by
  have h : zeroBlob = List.replicate (4294967293 + 3) 0 := by
    unfold zeroBlob
    congr 1
  rw [h]
  exact lengthPrefix_replicate_zero 4294967293

theorem parseCertEntry_x509_small (v t ts : Nat) (x : String) (c : List Nat)
    (hc : ∀ y ∈ c, y < 256) (hlen : c.length < 2 ^ 32) :
    parseCertEntry ⟨v, t, ts, 0, base64Encode c, x⟩ =
      if 3 ≤ c.length ∧ lengthPrefix c + 3 ≤ c.length then
        .ok ⟨lengthPrefix c, (c.drop 3).take (lengthPrefix c)⟩
      else .err "Invalid certificate: too short" := by
  rw [parseCertEntry_x509_encoded v t ts x c hc, Nat.mod_eq_of_lt hlen]
  by_cases h3 : c.length < 3
  · have hn : ¬ (3 ≤ c.length ∧ lengthPrefix c + 3 ≤ c.length) := fun h => by omega
    simp only [if_pos h3, if_neg hn]
  · by_cases hL : c.length < lengthPrefix c + 3
    · have hn : ¬ (3 ≤ c.length ∧ lengthPrefix c + 3 ≤ c.length) := fun h => by omega
      simp only [if_neg h3, if_pos hL, if_neg hn]
    · have hy : 3 ≤ c.length ∧ lengthPrefix c + 3 ≤ c.length := ⟨by omega, by omega⟩
      simp only [if_neg h3, if_neg hL, if_pos hy]

theorem parseCertEntry_precert_small (v t ts : Nat) (e : String) (c : List Nat)
    (hc : ∀ y ∈ c, y < 256) (hlen : c.length < 2 ^ 32) :
    parseCertEntry ⟨v, t, ts, 1, e, base64Encode c⟩ =
      if 3 ≤ c.length ∧ lengthPrefix c + 3 ≤ c.length then
        .ok ⟨lengthPrefix c, (c.drop 3).take (lengthPrefix c)⟩
      else if c.length < 3 then .err "Invalid certificate entry: too short"
      else .err "Invalid certificate: too short" := by
  rw [parseCertEntry_precert_encoded v t ts e c hc, Nat.mod_eq_of_lt hlen]
  by_cases h3 : c.length < 3
  · have hn : ¬ (3 ≤ c.length ∧ lengthPrefix c + 3 ≤ c.length) := fun h => by omega
    simp only [if_pos h3, if_neg hn]
  · by_cases hL : c.length < lengthPrefix c + 3
    · have hn : ¬ (3 ≤ c.length ∧ lengthPrefix c + 3 ≤ c.length) := fun h => by omega
      simp only [if_neg h3, if_pos hL, if_neg hn]
    · have hy : 3 ≤ c.length ∧ lengthPrefix c + 3 ≤ c.length := ⟨by omega, by omega⟩
      simp only [if_neg h3, if_neg hL, if_pos hy]

theorem length_cut (c : List Nat) (h : lengthPrefix c + 3 ≤ c.length) :
    ((c.drop 3).take (lengthPrefix c)).length = lengthPrefix c := by
  rw [List.length_take, List.length_drop]
  omega

/-- C3, the code at the failing input. For the blob of `2^32` zero bytes the length
prefix is 0, so `len(c) >= 3` and `len(c) >= L + 3` hold, and `parseCertEntry`
returns the error "too short": it compares `uint32(len(cert_bytes))`, which is
0, with `Length + 3`.  The defect is confined to blobs of `2^32` bytes or more:
for every shorter blob `parseCertEntry` succeeds exactly when `len(c) >= 3` and
`len(c) >= L + 3`, with `Length = L` and `CertData` the `L` bytes `c[3 .. 3+L)`,
trailing bytes dropped, and fails with an error otherwise.  The bytes
`00 01 2C` give the length 300. -/
theorem parseCertEntry_x509_truncated_length :
    (∀ y ∈ zeroBlob, y < 256) ∧ zeroBlob.length = 2 ^ 32 ∧ lengthPrefix zeroBlob = 0 ∧
    (3 ≤ zeroBlob.length ∧ lengthPrefix zeroBlob + 3 ≤ zeroBlob.length) ∧
    parseCertEntry ⟨0, 0, 0, 0, base64Encode zeroBlob, ""⟩ =
      .err "Invalid certificate: too short" ∧
    threeByteToUint32 [0x00, 0x01, 0x2C] = .ok 300 ∧
    parseCertEntry ⟨0, 0, 0, 0, base64Encode paddedCertBlob, ""⟩ = .ok ⟨1, [0xFF]⟩ ∧
    ∀ (v t ts : Nat) (x : String) (c : List Nat), (∀ y ∈ c, y < 256) → c.length < 2 ^ 32 →
      (3 ≤ c.length ∧ lengthPrefix c + 3 ≤ c.length →
        parseCertEntry ⟨v, t, ts, 0, base64Encode c, x⟩ =
          .ok ⟨lengthPrefix c, (c.drop 3).take (lengthPrefix c)⟩ ∧
        ((c.drop 3).take (lengthPrefix c)).length = lengthPrefix c) ∧
      (¬ (3 ≤ c.length ∧ lengthPrefix c + 3 ≤ c.length) →
        parseCertEntry ⟨v, t, ts, 0, base64Encode c, x⟩ =
          .err "Invalid certificate: too short") := by
  refine ⟨zeroBlob_bytes, zeroBlob_length, zeroBlob_lengthPrefix, ⟨?_, ?_⟩, ?_, by decide,
    by decide, ?_⟩
  · rw [zeroBlob_length]; decide
  · rw [zeroBlob_length, zeroBlob_lengthPrefix]; decide
  · rw [parseCertEntry_x509_encoded 0 0 0 "" zeroBlob zeroBlob_bytes, zeroBlob_length,
      zeroBlob_lengthPrefix]
    decide
  · intro v t ts x c hc hlen
    rw [parseCertEntry_x509_small v t ts x c hc hlen]
    exact ⟨fun h => ⟨by simp only [if_pos h], length_cut c h.2⟩,
      fun h => by simp only [if_neg h]⟩

theorem parseCertEntry_precert_as_x509 (v t ts v2 t2 ts2 : Nat) (e x y : String) :
    parseCertEntry ⟨v, t, ts, 1, e, x⟩ = parseCertEntry ⟨v2, t2, ts2, 0, x, y⟩ ∨
    (∃ bd, base64Decode x = .ok bd ∧ bd.length < 3 ∧
      parseCertEntry ⟨v, t, ts, 1, e, x⟩ = .err "Invalid certificate entry: too short" ∧
      parseCertEntry ⟨v2, t2, ts2, 0, x, y⟩ = .err "Invalid certificate: too short") := by
  have h10 : (1 : Nat) = 0 ↔ False := by decide
  simp only [parseCertEntry, h10, if_false, if_true]
  cases hd : base64Decode x with
  | ok bd =>
    by_cases h : bd.length < 3
    · right
      exact ⟨bd, rfl, h, by simp only [h, if_true], by simp only [h, if_true]⟩
    · left; simp only [h, if_false]
  | err m => left; rfl
  | crash => left; rfl
  | fatal => left; rfl
  | fuel => left; rfl

/-- C4, the claim as stated fails: on a blob of two bytes the PreCert path returns
the error "Invalid certificate entry: too short" and the X509 path, given the
same bytes, returns the error "Invalid certificate: too short"; the two results
are not the same. -/
theorem parseCertEntry_precert_counterexample :
    base64Decode (base64Encode [0x00, 0x00]) = .ok [0x00, 0x00] ∧
    parseCertEntry ⟨0, 0, 0, 1, "", base64Encode [0x00, 0x00]⟩ =
      .err "Invalid certificate entry: too short" ∧
    parseCertEntry ⟨0, 0, 0, 0, base64Encode [0x00, 0x00], ""⟩ =
      .err "Invalid certificate: too short" ∧
    parseCertEntry ⟨0, 0, 0, 1, "", base64Encode [0x00, 0x00]⟩ ≠
      parseCertEntry ⟨0, 0, 0, 0, base64Encode [0x00, 0x00], ""⟩ := by
  decide

/-- C4, amended. For a leaf with `LogEntryType` 1, `parseCertEntry` does not depend
on the leaf's `Entry` (nor on any field but `Extra_data`), and it returns what
the X509 path returns on a leaf whose `Entry` is this `Extra_data`, except that
for a blob of fewer than 3 bytes the error reads "Invalid certificate entry: too
short" where the X509 path has "Invalid certificate: too short".  When
`Extra_data` is the base64 encoding of a byte string `c` of fewer than `2^32`
bytes, with `L` the first three bytes of `c` read as a big-endian 24-bit integer
(not a 32-byte prefix): `parseCertEntry` succeeds exactly when `len(c) >= 3` and
`len(c) >= L + 3`, then with `Length = L` and `CertData` the `L` bytes
`c[3 .. 3+L)`, trailing bytes dropped, and otherwise fails with an error.
Whatever the length of `c`, fewer than `L + 3` bytes give a failure. -/
theorem parseCertEntry_precert_spec (v t ts v2 t2 ts2 : Nat) (e e2 x y : String)
    (c : List Nat) (hc : ∀ b ∈ c, b < 256) :
    parseCertEntry ⟨v, t, ts, 1, e, x⟩ = parseCertEntry ⟨v2, t2, ts2, 1, e2, x⟩ ∧
    (parseCertEntry ⟨v, t, ts, 1, e, x⟩ = parseCertEntry ⟨v2, t2, ts2, 0, x, y⟩ ∨
      (∃ bd, base64Decode x = .ok bd ∧ bd.length < 3 ∧
        parseCertEntry ⟨v, t, ts, 1, e, x⟩ = .err "Invalid certificate entry: too short" ∧
        parseCertEntry ⟨v2, t2, ts2, 0, x, y⟩ = .err "Invalid certificate: too short")) ∧
    (c.length < 2 ^ 32 →
      (3 ≤ c.length ∧ lengthPrefix c + 3 ≤ c.length →
        parseCertEntry ⟨v, t, ts, 1, e, base64Encode c⟩ =
          .ok ⟨lengthPrefix c, (c.drop 3).take (lengthPrefix c)⟩ ∧
        ((c.drop 3).take (lengthPrefix c)).length = lengthPrefix c) ∧
      (¬ (3 ≤ c.length ∧ lengthPrefix c + 3 ≤ c.length) →
        parseCertEntry ⟨v, t, ts, 1, e, base64Encode c⟩ =
          (if c.length < 3 then .err "Invalid certificate entry: too short"
            else .err "Invalid certificate: too short"))) ∧
    (c.length < lengthPrefix c + 3 →
      ∃ msg, parseCertEntry ⟨v, t, ts, 1, e, base64Encode c⟩ = .err msg) := by
  refine ⟨rfl, parseCertEntry_precert_as_x509 v t ts v2 t2 ts2 e x y, ?_, ?_⟩
  · intro hlen
    rw [parseCertEntry_precert_small v t ts e c hc hlen]
    exact ⟨fun h => ⟨by simp only [if_pos h], length_cut c h.2⟩,
      fun h => by simp only [if_neg h]⟩
  · intro hshort
    rw [parseCertEntry_precert_encoded v t ts e c hc]
    by_cases h3 : c.length < 3
    · exact ⟨_, by rw [if_pos h3]⟩
    · have hmod := Nat.mod_le c.length (2 ^ 32)
      have hL : c.length % 2 ^ 32 < lengthPrefix c + 3 := by omega
      exact ⟨_, by rw [if_neg h3, if_pos hL]⟩

theorem parseCertEntry_precert_spec_witness :
    (∀ b ∈ paddedCertBlob, b < 256) ∧ paddedCertBlob.length < 2 ^ 32 ∧
    (3 ≤ paddedCertBlob.length ∧ lengthPrefix paddedCertBlob + 3 ≤ paddedCertBlob.length) ∧
    parseCertEntry ⟨0, 0, 100000, 1, "AAAA", base64Encode paddedCertBlob⟩ = .ok ⟨1, [0xFF]⟩ ∧
    parseCertEntry ⟨0, 0, 100000, 1, "AAAA", base64Encode [0x00, 0x00, 0x02, 0xFF]⟩ =
      .err "Invalid certificate: too short" :=
  ⟨by decide, by decide, by decide,
    (((parseCertEntry_precert_spec 0 0 100000 0 0 0 "AAAA" "" "" "" paddedCertBlob
      (by decide)).2.2.1 (by decide)).1 (by decide)).1.trans (by decide),
    (((parseCertEntry_precert_spec 0 0 100000 0 0 0 "AAAA" "" "" "" [0x00, 0x00, 0x02, 0xFF]
      (by decide)).2.2.1 (by decide)).2 (by decide)).trans (by decide)⟩

/-! ## The common name -/

theorem getCommonname_rejected (pc : List Nat → Except String String) (leaf : MerkleTreeLeaf)
    (cert : certificate) (e : String) (h1 : parseCertEntry leaf = .ok cert)
    (h2 : pc cert.CertData = .error e) : getCommonname pc leaf = .crash := by
  simp only [getCommonname, h1, h2]

/-- C5, the code at the failing input. The certificate blob of `badLeaf` is cut out
without error and the certificate parser rejects it; `getCommonname` then does
not return an error: it dereferences the nil certificate.  The scan of a page
that holds this entry ends there and does not reach the entry that follows. -/
theorem getCommonname_bad_der_crashes :
    parseLeafInput badEntry = .ok badLeaf ∧
    parseCertEntry badLeaf = .ok ⟨1, [0xFF]⟩ ∧
    exampleParseCertificate [0xFF] = .error "x509: malformed certificate" ∧
    getCommonname exampleParseCertificate badLeaf = .crash ∧
    processEntries exampleParseCertificate (exampleMonitor 13) [badEntry, watchedEntry] =
      .crash := by
  have h1 : parseLeafInput badEntry = .ok badLeaf := by decide
  have h2 : parseCertEntry badLeaf = .ok ⟨1, [0xFF]⟩ := by decide
  have h3 : getCommonname exampleParseCertificate badLeaf = .crash :=
    getCommonname_rejected _ _ _ "x509: malformed certificate" h2 rfl
  refine ⟨h1, h2, rfl, h3, ?_⟩
  have h10 : ¬ (badLeaf.LogEntryType ≠ 0 ∧ badLeaf.LogEntryType ≠ 1) := by decide
  simp only [processEntries, processEntry, h1, h3, h10, if_false]

/-! ## Matching -/

theorem stringsContains_iff (s sub : String) :
    stringsContains s sub = true ↔ IsSubstring sub s := by
  unfold stringsContains IsSubstring
  rw [List.any_eq_true]
  constructor
  · rintro ⟨t, ht, hp⟩
    obtain ⟨pre, hpre⟩ := (List.mem_tails _ _).1 ht
    obtain ⟨suf, hsuf⟩ := List.isPrefixOf_iff_prefix.1 hp
    exact ⟨pre, suf, by rw [← hpre, ← hsuf, List.append_assoc]⟩
  · rintro ⟨pre, suf, h⟩
    refine ⟨sub.data ++ suf, (List.mem_tails _ _).2 ⟨pre, by rw [h, List.append_assoc]⟩, ?_⟩
    exact List.isPrefixOf_iff_prefix.2 ⟨suf, rfl⟩

theorem indexNonStrictFrom_spec (word : String) (array : List String) (k : Int) :
    (∃ (i : Nat) (entry : String), array[i]? = some entry ∧
        indexNonStrictFrom word array k = (entry, k + (i : Int)) ∧ IsSubstring entry word ∧
        ∀ (j : Nat) (e : String), j < i → array[j]? = some e → ¬ IsSubstring e word) ∨
    ((∀ e ∈ array, ¬ IsSubstring e word) ∧ indexNonStrictFrom word array k = ("", -1)) := by
  induction array generalizing k with
  | nil => right; exact ⟨by simp, rfl⟩
  | cons a rest ih =>
    by_cases hc : stringsContains word a = true
    · left
      refine ⟨0, a, by simp, ?_, (stringsContains_iff _ _).1 hc, fun j e hj => absurd hj (by omega)⟩
      simp [indexNonStrictFrom, hc]
    · have hna : ¬ IsSubstring a word := fun h => hc ((stringsContains_iff _ _).2 h)
      have hstep : indexNonStrictFrom word (a :: rest) k = indexNonStrictFrom word rest (k + 1) := by
        simp [indexNonStrictFrom, hc]
      rcases ih (k + 1) with ⟨i, entry, hget, hres, hsub, hmin⟩ | ⟨hall, hres⟩
      · left
        refine ⟨i + 1, entry, by simpa using hget, ?_, hsub, ?_⟩
        · rw [hstep, hres]
          congr 1
          push_cast
          ring
        · intro j e hj hje
          cases j with
          | zero =>
            simp only [List.getElem?_cons_zero, Option.some.injEq] at hje
            exact hje ▸ hna
          | succ j => exact hmin j e (by omega) (by simpa using hje)
      · right
        refine ⟨?_, by rw [hstep, hres]⟩
        intro e he
        rcases List.mem_cons.1 he with h | h
        · exact h ▸ hna
        · exact hall e h

/-- C6. `indexNonStrict(array, word)` returns `(array[i], i)` for the smallest `i`
such that `array[i]` is a substring of `word`, and `("", -1)` when no entry of
`array` is a substring of `word`.  On the watch-list `["example.com"]` the name
`www.example.com` gives `("example.com", 0)` and `example.org` gives `("", -1)`. -/
theorem indexNonStrict_spec (array : List String) (word : String) :
    ((∃ (i : Nat) (entry : String), array[i]? = some entry ∧
        indexNonStrict array word = (entry, (i : Int)) ∧ IsSubstring entry word ∧
        ∀ (j : Nat) (e : String), j < i → array[j]? = some e → ¬ IsSubstring e word) ∨
      ((∀ e ∈ array, ¬ IsSubstring e word) ∧ indexNonStrict array word = ("", -1))) ∧
    indexNonStrict ["example.com"] "www.example.com" = ("example.com", 0) ∧
    indexNonStrict ["example.com"] "example.org" = ("", -1) := by
  refine ⟨?_, by decide, by decide⟩
  have h := indexNonStrictFrom_spec word array 0
  simpa only [indexNonStrict, zero_add] using h

theorem indexFrom_spec (word : String) (array : List String) (k : Int) :
    (∃ i : Nat, array[i]? = some word ∧ indexFrom word array k = k + (i : Int) ∧
        ∀ j : Nat, j < i → array[j]? ≠ some word) ∨
    (word ∉ array ∧ indexFrom word array k = -1) := by
  induction array generalizing k with
  | nil => right; exact ⟨by simp, rfl⟩
  | cons a rest ih =>
    by_cases hc : word = a
    · left
      refine ⟨0, by simp [hc], by simp [indexFrom, hc], fun j hj => absurd hj (by omega)⟩
    · have hstep : indexFrom word (a :: rest) k = indexFrom word rest (k + 1) := by
        simp [indexFrom, hc]
      rcases ih (k + 1) with ⟨i, hget, hres, hmin⟩ | ⟨hall, hres⟩
      · left
        refine ⟨i + 1, by simpa using hget, ?_, ?_⟩
        · rw [hstep, hres]
          push_cast
          ring
        · intro j hj
          cases j with
          | zero =>
            simp only [List.getElem?_cons_zero, ne_eq, Option.some.injEq]
            exact fun h => hc h.symm
          | succ j => simpa using hmin j (by omega)
      · right
        refine ⟨?_, by rw [hstep, hres]⟩
        intro he
        rcases List.mem_cons.1 he with h | h
        · exact hc h
        · exact hall h

theorem index_eq_neg_one_iff (array : List String) (word : String) :
    index array word = -1 ↔ word ∉ array := by
  rcases indexFrom_spec word array 0 with ⟨i, hget, hres, _⟩ | ⟨hall, hres⟩
  · have hmem : word ∈ array := List.mem_iff_getElem?.2 ⟨i, hget⟩
    constructor
    · intro h
      unfold index at h
      rw [hres] at h
      omega
    · intro h; exact absurd hmem h
  · exact ⟨fun _ => hall, fun _ => hres⟩

/-! ## The scan of one page -/

theorem processEntry_eq (pc : List Nat → Except String String) (m : Monitor)
    (entry : Raw_entry) :
    processEntry pc m entry =
      match entryMatch pc m.hostnames m.NON_STRICT entry with
      | .ok none => .ok m
      | .ok (some rh) => .ok (storeMatch m rh)
      | .err e => .err e
      | .crash => .crash
      | .fatal => .fatal
      | .fuel => .fuel := by
  unfold processEntry entryMatch
  cases parseLeafInput entry with
  | ok leaf =>
    by_cases hty : leaf.LogEntryType ≠ 0 ∧ leaf.LogEntryType ≠ 1
    · simp only [if_pos hty]
    · simp only [if_neg hty]
      cases getCommonname pc leaf with
      | ok cn =>
        by_cases hi : (if m.NON_STRICT = true then indexNonStrict m.hostnames cn
            else (cn, index m.hostnames cn)).2 ≠ -1
        · by_cases hts : 2 ^ 63 ≤ leaf.Timestamp
          · simp only [if_pos hi, if_pos hts]
          · simp only [if_pos hi, if_neg hts]; rfl
        · simp only [if_neg hi]
      | err e => rfl
      | crash => rfl
      | fatal => rfl
      | fuel => rfl
  | err e => rfl
  | crash => rfl
  | fatal => rfl
  | fuel => rfl

theorem storeMatch_of_mem (m : Monitor) (rh : db_row × String) (h : rh.1 ∈ m.database) :
    storeMatch m rh = m := by
  cases m
  simp only [storeMatch, insertOrIgnore] at h ⊢
  simp only [h, if_true, Monitor.mk.injEq, true_and, and_true]
  funext a b
  simp [metricAdd]

theorem storeMatch_database (m : Monitor) (rh : db_row × String) :
    m.database ⊆ (storeMatch m rh).database ∧ rh.1 ∈ (storeMatch m rh).database := by
  by_cases h : rh.1 ∈ m.database
  · rw [storeMatch_of_mem m rh h]
    exact ⟨List.Subset.refl _, h⟩
  · simp only [storeMatch, insertOrIgnore, h, if_false]
    exact ⟨List.subset_append_left _ _, by simp⟩

theorem processEntry_frame (pc : List Nat → Except String String) (m m1 : Monitor)
    (entry : Raw_entry) (h : processEntry pc m entry = .ok m1) :
    m1.hostnames = m.hostnames ∧ m1.NON_STRICT = m.NON_STRICT ∧ m1.tree_head = m.tree_head ∧
    m.database ⊆ m1.database := by
  rw [processEntry_eq] at h
  cases hm : entryMatch pc m.hostnames m.NON_STRICT entry with
  | ok o =>
    cases o with
    | none =>
      simp only [hm, Res.ok.injEq] at h
      subst h
      exact ⟨rfl, rfl, rfl, List.Subset.refl _⟩
    | some rh =>
      simp only [hm, Res.ok.injEq] at h
      subst h
      exact ⟨rfl, rfl, rfl, (storeMatch_database m rh).1⟩
  | err e => simp [hm] at h
  | crash => simp [hm] at h
  | fatal => simp [hm] at h
  | fuel => simp [hm] at h

theorem processEntry_absorb (pc : List Nat → Except String String) (m m1 m2 : Monitor)
    (entry : Raw_entry) (h : processEntry pc m entry = .ok m1)
    (hh : m2.hostnames = m.hostnames) (hn : m2.NON_STRICT = m.NON_STRICT)
    (hsub : m1.database ⊆ m2.database) : processEntry pc m2 entry = .ok m2 := by
  rw [processEntry_eq] at h ⊢
  rw [hh, hn]
  cases hm : entryMatch pc m.hostnames m.NON_STRICT entry with
  | ok o =>
    cases o with
    | none => rfl
    | some rh =>
      simp only [hm, Res.ok.injEq] at h
      subst h
      simp only [Res.ok.injEq]
      exact storeMatch_of_mem m2 rh (hsub (storeMatch_database m rh).2)
  | err e => simp [hm] at h
  | crash => simp [hm] at h
  | fatal => simp [hm] at h
  | fuel => simp [hm] at h

theorem processEntries_cons_ok (pc : List Nat → Except String String) (m m1 : Monitor)
    (entry : Raw_entry) (rest : List Raw_entry)
    (h : processEntries pc m (entry :: rest) = .ok m1) :
    ∃ ma, processEntry pc m entry = .ok ma ∧ processEntries pc ma rest = .ok m1 := by
  simp only [processEntries] at h
  cases hp : processEntry pc m entry with
  | ok ma => rw [hp] at h; exact ⟨ma, rfl, h⟩
  | err e => simp [hp] at h
  | crash => simp [hp] at h
  | fatal => simp [hp] at h
  | fuel => simp [hp] at h

theorem processEntries_frame (pc : List Nat → Except String String) (entries : List Raw_entry) :
    ∀ m m1 : Monitor, processEntries pc m entries = .ok m1 →
      m1.hostnames = m.hostnames ∧ m1.NON_STRICT = m.NON_STRICT ∧
      m1.tree_head = m.tree_head ∧ m.database ⊆ m1.database := by
  induction entries with
  | nil =>
    intro m m1 h
    simp only [processEntries, Res.ok.injEq] at h
    subst h
    exact ⟨rfl, rfl, rfl, List.Subset.refl _⟩
  | cons entry rest ih =>
    intro m m1 h
    obtain ⟨ma, h1, h2⟩ := processEntries_cons_ok pc m m1 entry rest h
    obtain ⟨a1, a2, a3, a4⟩ := processEntry_frame pc m ma entry h1
    obtain ⟨b1, b2, b3, b4⟩ := ih ma m1 h2
    exact ⟨b1.trans a1, b2.trans a2, b3.trans a3, List.Subset.trans a4 b4⟩

theorem processEntries_absorb (pc : List Nat → Except String String)
    (entries : List Raw_entry) :
    ∀ m m1 m2 : Monitor, processEntries pc m entries = .ok m1 →
      m2.hostnames = m.hostnames → m2.NON_STRICT = m.NON_STRICT →
      m1.database ⊆ m2.database → processEntries pc m2 entries = .ok m2 := by
  induction entries with
  | nil => intro m m1 m2 _ _ _ _; rfl
  | cons entry rest ih =>
    intro m m1 m2 h hh hn hsub
    obtain ⟨ma, h1, h2⟩ := processEntries_cons_ok pc m m1 entry rest h
    obtain ⟨a1, a2, _, _⟩ := processEntry_frame pc m ma entry h1
    obtain ⟨_, _, _, b4⟩ := processEntries_frame pc rest ma m1 h2
    have hstep : processEntry pc m2 entry = .ok m2 :=
      processEntry_absorb pc m ma m2 entry h1 hh hn (List.Subset.trans b4 hsub)
    simp only [processEntries, hstep]
    exact ih ma m1 m2 h2 (hh.trans a1.symm) (hn.trans a2.symm) hsub

/-- C7. `index(array, word)` returns the smallest `i` with `array[i] == word`, and
`-1` exactly when no entry equals `word`; on `["example.com"]` the name
`www.example.com` gives `-1`.  In strict mode the body of the scan leaves the
monitor as it was unless the common name of the entry is an element of the
watch-list, in which case it stores the row under that name. -/
theorem index_spec (array : List String) (word : String)
    (pc : List Nat → Except String String) (m m1 : Monitor) (entry : Raw_entry) :
    ((∃ i : Nat, array[i]? = some word ∧ index array word = (i : Int) ∧
        ∀ j : Nat, j < i → array[j]? ≠ some word) ∨
      (word ∉ array ∧ index array word = -1)) ∧
    (index array word = -1 ↔ word ∉ array) ∧
    index ["example.com"] "www.example.com" = -1 ∧
    (m.NON_STRICT = false → processEntry pc m entry = .ok m1 →
      m1 = m ∨
      ∃ leaf cn, parseLeafInput entry = .ok leaf ∧ getCommonname pc leaf = .ok cn ∧
        cn ∈ m.hostnames ∧
        m1 = storeMatch m
          (⟨leaf.Timestamp, cn, leaf.Entry, LOG_ENTRY_TYPE_MAP leaf.LogEntryType⟩, cn)) := by
  refine ⟨?_, index_eq_neg_one_iff array word, by decide, ?_⟩
  · have h := indexFrom_spec word array 0
    simpa only [index, zero_add] using h
  · intro hns h
    unfold processEntry at h
    cases hp : parseLeafInput entry with
    | ok leaf =>
      rw [hp] at h
      by_cases hty : leaf.LogEntryType ≠ 0 ∧ leaf.LogEntryType ≠ 1
      · simp only [if_pos hty, Res.ok.injEq] at h
        exact Or.inl h.symm
      · simp only [if_neg hty] at h
        cases hg : getCommonname pc leaf with
        | ok cn =>
          rw [hg] at h
          have hfalse : (m.NON_STRICT = true) ↔ False := by simp [hns]
          simp only [hfalse, if_false] at h
          by_cases hi : index m.hostnames cn ≠ -1
          · by_cases hts : 2 ^ 63 ≤ leaf.Timestamp
            · rw [if_pos hi, if_pos hts] at h
              cases h
            · rw [if_pos hi, if_neg hts] at h
              simp only [Res.ok.injEq] at h
              right
              refine ⟨leaf, cn, rfl, hg, ?_, h.symm⟩
              by_contra hmem
              exact hi ((index_eq_neg_one_iff _ _).2 hmem)
          · simp only [if_neg hi, Res.ok.injEq] at h
            exact Or.inl h.symm
        | err e => rw [hg] at h; simp only [Res.ok.injEq] at h; exact Or.inl h.symm
        | crash => rw [hg] at h; simp at h
        | fatal => rw [hg] at h; simp at h
        | fuel => rw [hg] at h; simp at h
    | err e => rw [hp] at h; simp only [Res.ok.injEq] at h; exact Or.inl h.symm
    | crash => rw [hp] at h; simp at h
    | fatal => rw [hp] at h; simp at h
    | fuel => rw [hp] at h; simp at h

/-! ## The scan of a range -/

theorem addEntriesLoop_succ_ok (pc : List Nat → Except String String) (srv : Server)
    (g max fuel start : Nat) (m m1 : Monitor) (t t1 : Trace) (hle : start ≤ max)
    (h : addEntriesLoop pc srv g max (fuel + 1) start m t = (.ok m1, t1)) :
    ∃ entries reqs ma,
      getEntries srv g start (min64 ((start + REQUEST_SIZE) % 2 ^ 64) max) = (.ok entries, reqs) ∧
      processEntries pc m entries = .ok ma ∧
      addEntriesLoop pc srv g max fuel ((start + REQUEST_SIZE) % 2 ^ 64) ma
        ⟨t.calls ++ [(start, min64 ((start + REQUEST_SIZE) % 2 ^ 64) max)],
          t.requests ++ reqs⟩ = (.ok m1, t1) := by
  simp only [addEntriesLoop, if_pos hle] at h
  rcases hg : getEntries srv g start (min64 ((start + REQUEST_SIZE) % 2 ^ 64) max) with ⟨r, reqs⟩
  rw [hg] at h
  cases r with
  | ok entries =>
    simp only at h
    cases hp : processEntries pc m entries with
    | ok ma => rw [hp] at h; exact ⟨entries, reqs, ma, rfl, hp, h⟩
    | err e => rw [hp] at h; simp at h
    | crash => rw [hp] at h; simp at h
    | fatal => rw [hp] at h; simp at h
    | fuel => rw [hp] at h; simp at h
  | err e => simp at h
  | crash => simp at h
  | fatal => simp at h
  | fuel => simp at h

theorem addEntriesLoop_frame (pc : List Nat → Except String String) (srv : Server)
    (g max : Nat) :
    ∀ (fuel start : Nat) (m m1 : Monitor) (t t1 : Trace),
      addEntriesLoop pc srv g max fuel start m t = (.ok m1, t1) →
      m1.hostnames = m.hostnames ∧ m1.NON_STRICT = m.NON_STRICT ∧
      m1.tree_head = m.tree_head ∧ m.database ⊆ m1.database := by
  intro fuel
  induction fuel with
  | zero =>
    intro start m m1 t t1 h
    by_cases hle : start ≤ max
    · simp [addEntriesLoop, hle] at h
    · simp only [addEntriesLoop, if_neg hle, Prod.mk.injEq, Res.ok.injEq] at h
      rw [← h.1]
      exact ⟨rfl, rfl, rfl, List.Subset.refl _⟩
  | succ fuel ih =>
    intro start m m1 t t1 h
    by_cases hle : start ≤ max
    · obtain ⟨entries, reqs, ma, _, hp, hrest⟩ :=
        addEntriesLoop_succ_ok pc srv g max fuel start m m1 t t1 hle h
      obtain ⟨a1, a2, a3, a4⟩ := processEntries_frame pc entries m ma hp
      obtain ⟨b1, b2, b3, b4⟩ := ih _ ma m1 _ t1 hrest
      exact ⟨b1.trans a1, b2.trans a2, b3.trans a3, List.Subset.trans a4 b4⟩
    · simp only [addEntriesLoop, if_neg hle, Prod.mk.injEq, Res.ok.injEq] at h
      rw [← h.1]
      exact ⟨rfl, rfl, rfl, List.Subset.refl _⟩

theorem addEntriesLoop_absorb (pc : List Nat → Except String String) (srv : Server)
    (g max : Nat) :
    ∀ (fuel start : Nat) (m m1 m2 : Monitor) (t t1 : Trace),
      addEntriesLoop pc srv g max fuel start m t = (.ok m1, t1) →
      m2.hostnames = m.hostnames → m2.NON_STRICT = m.NON_STRICT →
      m1.database ⊆ m2.database →
      addEntriesLoop pc srv g max fuel start m2 t = (.ok m2, t1) := by
  intro fuel
  induction fuel with
  | zero =>
    intro start m m1 m2 t t1 h _ _ _
    by_cases hle : start ≤ max
    · simp [addEntriesLoop, hle] at h
    · simp only [addEntriesLoop, if_neg hle, Prod.mk.injEq, Res.ok.injEq] at h ⊢
      exact ⟨trivial, h.2⟩
  | succ fuel ih =>
    intro start m m1 m2 t t1 h hh hn hsub
    by_cases hle : start ≤ max
    · obtain ⟨entries, reqs, ma, hg, hp, hrest⟩ :=
        addEntriesLoop_succ_ok pc srv g max fuel start m m1 t t1 hle h
      obtain ⟨a1, a2, _, _⟩ := processEntries_frame pc entries m ma hp
      obtain ⟨_, _, _, b4⟩ := addEntriesLoop_frame pc srv g max fuel _ ma m1 _ t1 hrest
      have hp2 : processEntries pc m2 entries = .ok m2 :=
        processEntries_absorb pc entries m ma m2 hp hh hn (List.Subset.trans b4 hsub)
      simp only [addEntriesLoop, if_pos hle, hg, hp2]
      exact ih _ ma m1 m2 _ t1 hrest (hh.trans a1.symm) (hn.trans a2.symm) hsub
    · simp only [addEntriesLoop, if_neg hle, Prod.mk.injEq, Res.ok.injEq] at h ⊢
      exact ⟨trivial, h.2⟩

theorem getCommonname_ok_type (pc : List Nat → Except String String) (leaf : MerkleTreeLeaf)
    (cn : String) (h : getCommonname pc leaf = .ok cn) :
    ¬ (leaf.LogEntryType ≠ 0 ∧ leaf.LogEntryType ≠ 1) := by
  rintro ⟨h0, h1⟩
  simp [getCommonname, parseCertEntry, h0, h1] at h

theorem processEntry_match (pc : List Nat → Except String String) (m : Monitor)
    (entry : Raw_entry) (leaf : MerkleTreeLeaf) (cn : String)
    (h1 : parseLeafInput entry = .ok leaf) (h2 : getCommonname pc leaf = .ok cn)
    (hi : (if m.NON_STRICT = true then indexNonStrict m.hostnames cn
      else (cn, index m.hostnames cn)).2 ≠ -1) (hts : leaf.Timestamp < 2 ^ 63) :
    processEntry pc m entry = .ok (storeMatch m
      (⟨leaf.Timestamp, cn, leaf.Entry, LOG_ENTRY_TYPE_MAP leaf.LogEntryType⟩,
        (if m.NON_STRICT = true then indexNonStrict m.hostnames cn
          else (cn, index m.hostnames cn)).1)) := by
  have hts2 : ¬ 2 ^ 63 ≤ leaf.Timestamp := by omega
  unfold processEntry
  simp only [h1, if_neg (getCommonname_ok_type pc leaf cn h2), h2, if_pos hi, if_neg hts2]
  rfl

theorem processEntry_refused (pc : List Nat → Except String String) (m : Monitor)
    (entry : Raw_entry) (leaf : MerkleTreeLeaf) (cn : String)
    (h1 : parseLeafInput entry = .ok leaf) (h2 : getCommonname pc leaf = .ok cn)
    (hi : (if m.NON_STRICT = true then indexNonStrict m.hostnames cn
      else (cn, index m.hostnames cn)).2 ≠ -1) (hts : 2 ^ 63 ≤ leaf.Timestamp) :
    processEntry pc m entry = .crash := by
  unfold processEntry
  simp only [h1, if_neg (getCommonname_ok_type pc leaf cn h2), h2, if_pos hi, if_pos hts]

theorem storeMatch_effect (m : Monitor) (rh : db_row × String) :
    (storeMatch m rh).database =
      (if rh.1 ∈ m.database then m.database else m.database ++ [rh.1]) ∧
    (storeMatch m rh).certificate_metrics rh.2 rh.1.logentrytype =
      m.certificate_metrics rh.2 rh.1.logentrytype + (if rh.1 ∈ m.database then 0 else 1) ∧
    (∀ h ty, ¬ (h = rh.2 ∧ ty = rh.1.logentrytype) →
      (storeMatch m rh).certificate_metrics h ty = m.certificate_metrics h ty) := by
  by_cases hmem : rh.1 ∈ m.database
  · simp [storeMatch, insertOrIgnore, metricAdd, hmem]
  · refine ⟨by simp [storeMatch, insertOrIgnore, hmem],
      by simp [storeMatch, insertOrIgnore, metricAdd, hmem], ?_⟩
    intro h ty hne
    simp only [storeMatch, metricAdd, if_neg hne]

theorem processEntry_match_effect (pc : List Nat → Except String String) (m0 : Monitor)
    (entry : Raw_entry) (leaf : MerkleTreeLeaf) (cn : String)
    (h1 : parseLeafInput entry = .ok leaf) (h2 : getCommonname pc leaf = .ok cn)
    (hi : (if m0.NON_STRICT = true then indexNonStrict m0.hostnames cn
      else (cn, index m0.hostnames cn)).2 ≠ -1) (hts : leaf.Timestamp < 2 ^ 63) :
    ∃ m2, processEntry pc m0 entry = .ok m2 ∧
      m2.database =
        (if (⟨leaf.Timestamp, cn, leaf.Entry, LOG_ENTRY_TYPE_MAP leaf.LogEntryType⟩ : db_row)
            ∈ m0.database then m0.database
          else m0.database ++
            [⟨leaf.Timestamp, cn, leaf.Entry, LOG_ENTRY_TYPE_MAP leaf.LogEntryType⟩]) ∧
      m2.certificate_metrics
          (if m0.NON_STRICT = true then indexNonStrict m0.hostnames cn
            else (cn, index m0.hostnames cn)).1 (LOG_ENTRY_TYPE_MAP leaf.LogEntryType) =
        m0.certificate_metrics
          (if m0.NON_STRICT = true then indexNonStrict m0.hostnames cn
            else (cn, index m0.hostnames cn)).1 (LOG_ENTRY_TYPE_MAP leaf.LogEntryType) +
        (if (⟨leaf.Timestamp, cn, leaf.Entry, LOG_ENTRY_TYPE_MAP leaf.LogEntryType⟩ : db_row)
            ∈ m0.database then 0 else 1) ∧
      (∀ h ty,
        ¬ (h = (if m0.NON_STRICT = true then indexNonStrict m0.hostnames cn
              else (cn, index m0.hostnames cn)).1 ∧ ty = LOG_ENTRY_TYPE_MAP leaf.LogEntryType) →
        m2.certificate_metrics h ty = m0.certificate_metrics h ty) :=
  ⟨_, processEntry_match pc m0 entry leaf cn h1 h2 hi hts, storeMatch_effect m0 _⟩

theorem addEntries_second_run (pc : List Nat → Except String String) (srv : Server)
    (fuel : Nat) (m m1 : Monitor) (t : Trace) (start end_ : Nat)
    (hrun : addEntries pc srv fuel m start end_ = (.ok m1, t)) :
    addEntries pc srv fuel m1 start end_ = (.ok m1, t) := by
  unfold addEntries at hrun ⊢
  obtain ⟨a1, a2, a3, _⟩ := addEntriesLoop_frame pc srv fuel _ fuel start m m1 _ t hrun
  rw [a3]
  exact addEntriesLoop_absorb pc srv fuel _ fuel start m m1 m1 _ t hrun a1 a2
    (List.Subset.refl _)

/-- C10, the code at the failing input. `farFutureEntry` is an X509 entry with leaf
time stamp `2^63` whose common name is on the watch-list and whose row is not in
the store.  The insert is refused for that time stamp, the error is dropped and
`results.RowsAffected()` panics: no row is added, no counter is raised and the
scan of the page ends there, before the entry that follows.  For a match with a
time stamp below `2^63` the row is inserted and the counter of (matched
hostname, entry-type name) is raised by the number of rows added, 1 when the
row was not yet stored and 0 when it was, every other counter staying as it is;
and when a run of `addEntries` over a range returns with monitor `m1`, a second
run over the same range against the same server returns with the same monitor
`m1`. -/
theorem addEntries_refused_timestamp :
    parseLeafInput farFutureEntry = .ok ⟨0, 0, 2 ^ 63, 0, "AAACMAE=", ""⟩ ∧
    getCommonname exampleParseCertificate ⟨0, 0, 2 ^ 63, 0, "AAACMAE=", ""⟩ =
      .ok "watched.example.com" ∧
    index (exampleMonitor 13).hostnames "watched.example.com" = 0 ∧
    (exampleMonitor 13).database = [] ∧
    processEntry exampleParseCertificate (exampleMonitor 13) farFutureEntry = .crash ∧
    processEntries exampleParseCertificate (exampleMonitor 13) [farFutureEntry, watchedEntry] =
      .crash ∧
    (∃ m1 t,
      addEntries exampleParseCertificate exampleServer 5 (exampleMonitor 13) 10 12 = (.ok m1, t) ∧
      m1.database = [⟨100000, "watched.example.com", "AAACMAE=", "X509"⟩] ∧
      m1.certificate_metrics "watched.example.com" "X509" = 1 ∧
      addEntries exampleParseCertificate exampleServer 5 m1 10 12 = (.ok m1, t)) ∧
    (∀ (pc : List Nat → Except String String) (m0 : Monitor) (entry : Raw_entry)
      (leaf : MerkleTreeLeaf) (cn : String),
      parseLeafInput entry = .ok leaf → getCommonname pc leaf = .ok cn →
      (if m0.NON_STRICT = true then indexNonStrict m0.hostnames cn
        else (cn, index m0.hostnames cn)).2 ≠ -1 →
      leaf.Timestamp < 2 ^ 63 →
      ∃ m2, processEntry pc m0 entry = .ok m2 ∧
        m2.database =
          (if (⟨leaf.Timestamp, cn, leaf.Entry, LOG_ENTRY_TYPE_MAP leaf.LogEntryType⟩ : db_row)
              ∈ m0.database then m0.database
            else m0.database ++
              [⟨leaf.Timestamp, cn, leaf.Entry, LOG_ENTRY_TYPE_MAP leaf.LogEntryType⟩]) ∧
        m2.certificate_metrics
            (if m0.NON_STRICT = true then indexNonStrict m0.hostnames cn
              else (cn, index m0.hostnames cn)).1 (LOG_ENTRY_TYPE_MAP leaf.LogEntryType) =
          m0.certificate_metrics
            (if m0.NON_STRICT = true then indexNonStrict m0.hostnames cn
              else (cn, index m0.hostnames cn)).1 (LOG_ENTRY_TYPE_MAP leaf.LogEntryType) +
          (if (⟨leaf.Timestamp, cn, leaf.Entry, LOG_ENTRY_TYPE_MAP leaf.LogEntryType⟩ : db_row)
              ∈ m0.database then 0 else 1) ∧
        (∀ h ty,
          ¬ (h = (if m0.NON_STRICT = true then indexNonStrict m0.hostnames cn
                else (cn, index m0.hostnames cn)).1 ∧
              ty = LOG_ENTRY_TYPE_MAP leaf.LogEntryType) →
          m2.certificate_metrics h ty = m0.certificate_metrics h ty)) ∧
    (∀ (pc : List Nat → Except String String) (srv : Server) (fuel : Nat) (m m1 : Monitor)
      (t : Trace) (start end_ : Nat),
      addEntries pc srv fuel m start end_ = (.ok m1, t) →
      addEntries pc srv fuel m1 start end_ = (.ok m1, t)) := by
  have h1 : parseLeafInput farFutureEntry = .ok ⟨0, 0, 2 ^ 63, 0, "AAACMAE=", ""⟩ := by decide
  have h2 : getCommonname exampleParseCertificate ⟨0, 0, 2 ^ 63, 0, "AAACMAE=", ""⟩ =
      .ok "watched.example.com" := by decide
  have hcrash : processEntry exampleParseCertificate (exampleMonitor 13) farFutureEntry =
      .crash :=
    processEntry_refused exampleParseCertificate (exampleMonitor 13) farFutureEntry _ _ h1 h2
      (by decide) (Nat.le_refl _)
  refine ⟨h1, h2, by decide, rfl, hcrash, ?_, ⟨_, _, rfl, rfl, rfl, ?_⟩, ?_, ?_⟩
  · simp only [processEntries, hcrash]
  · exact addEntries_second_run exampleParseCertificate exampleServer 5 (exampleMonitor 13) _ _
      10 12 rfl
  · intro pc m0 entry leaf cn e1 e2 hi hts
    exact processEntry_match_effect pc m0 entry leaf cn e1 e2 hi hts
  · intro pc srv fuel m m1 t start end_ hrun
    exact addEntries_second_run pc srv fuel m m1 t start end_ hrun

/-! ## The head check -/

theorem addEntriesLoop_of_lt (pc : List Nat → Except String String) (srv : Server)
    (g max fuel start : Nat) (m : Monitor) (t : Trace) (h : max < start) :
    addEntriesLoop pc srv g max fuel start m t = (.ok m, t) := by
  have hle : ¬ start ≤ max := by omega
  cases fuel with
  | zero => simp only [addEntriesLoop, if_neg hle]
  | succ fuel => simp only [addEntriesLoop, if_neg hle]

theorem Check_grown (pc : List Nat → Except String String) (srv : Server) (fuel : Nat)
    (m : Monitor) (new_sth : Signed_tree_head) (h1 : 1 ≤ m.tree_head.Tree_size)
    (h2 : m.tree_head.Tree_size < new_sth.Tree_size) (h3 : new_sth.Tree_size < 2 ^ 64) :
    Check pc srv fuel (.ok new_sth) m = (.ok { m with tree_head := new_sth }, ⟨[], []⟩) := by
  have hne : new_sth.Tree_size ≠ m.tree_head.Tree_size := by omega
  have hmax : min64 ((m.tree_head.Tree_size + 2 ^ 64 - 1) % 2 ^ 64)
      ((new_sth.Tree_size + 2 ^ 64 - 1) % 2 ^ 64) < m.tree_head.Tree_size := by
    unfold min64
    split <;> omega
  simp only [Check, if_pos hne, addEntries, addEntriesLoop_of_lt pc srv fuel _ fuel _ m _ hmax]

/-- C1, the code at the failing input. The monitor holds a head of size 10, the
log has grown to 13 entries and the entry of index 11 carries the watched name.
`Check` sends no request, leaves the store empty and the counter at 0, and
replaces the head by the one of size 13.  The same range scanned by a monitor
that already holds the head of size 13 stores the record of entry 11. -/
theorem Check_skips_new_entries :
    exampleLog.length = 13 ∧ exampleLog[11]? = some watchedEntry ∧
    (∃ m1, Check exampleParseCertificate exampleServer 5 (.ok (headOfSize 13))
        (exampleMonitor 10) = (.ok m1, ⟨[], []⟩) ∧
      m1.tree_head = headOfSize 13 ∧ m1.database = [] ∧
      m1.certificate_metrics "watched.example.com" "X509" = 0) ∧
    (∃ m2 t, addEntries exampleParseCertificate exampleServer 5 (exampleMonitor 13) 10 12 =
        (.ok m2, t) ∧
      m2.database = [⟨100000, "watched.example.com", "AAACMAE=", "X509"⟩] ∧
      m2.certificate_metrics "watched.example.com" "X509" = 1) :=
  ⟨by decide, by decide,
    ⟨_, Check_grown exampleParseCertificate exampleServer 5 (exampleMonitor 10) (headOfSize 13)
      (by decide) (by decide) (by decide), rfl, rfl, rfl⟩,
    ⟨_, _, rfl, rfl, rfl⟩⟩

/-! ## The requests of `getEntries` -/

theorem getEntriesLoop_requests (srv : Server) (end_ : Nat) :
    ∀ (fuel : Nat) (q : Values) (cursor : Nat) (all : List Raw_entry) (reqs : List Values),
      ∃ new : List Values,
        (getEntriesLoop srv end_ fuel q cursor all reqs).2 = reqs ++ new ∧
        ∀ (i : Nat) (r : Values), new[i]? = some r →
          r.start.length = q.start.length + i + 1 ∧ r.end_.length = q.end_.length + i + 1 ∧
          r.start.take q.start.length = q.start ∧ r.end_.take q.end_.length = q.end_ := by
  intro fuel
  induction fuel with
  | zero =>
    intro q cursor all reqs
    refine ⟨[], ?_, by simp⟩
    by_cases hle : cursor ≤ end_ <;> simp [getEntriesLoop, hle]
  | succ fuel ih =>
    intro q cursor all reqs
    by_cases hle : cursor ≤ end_
    · cases hs : srv ⟨q.start ++ [cursor], q.end_ ++ [end_]⟩ with
      | none =>
        refine ⟨[⟨q.start ++ [cursor], q.end_ ++ [end_]⟩], by simp [getEntriesLoop, hle, hs], ?_⟩
        intro i r hr
        cases i with
        | zero =>
          simp only [List.getElem?_cons_zero, Option.some.injEq] at hr
          subst hr
          simp
        | succ i => simp at hr
      | some page =>
        obtain ⟨new, hnew, hprop⟩ := ih ⟨q.start ++ [cursor], q.end_ ++ [end_]⟩
          ((cursor + page.length) % 2 ^ 64) (all ++ page)
          (reqs ++ [⟨q.start ++ [cursor], q.end_ ++ [end_]⟩])
        refine ⟨⟨q.start ++ [cursor], q.end_ ++ [end_]⟩ :: new, ?_, ?_⟩
        · simp only [getEntriesLoop, if_pos hle, hs, hnew, List.append_assoc,
            List.singleton_append]
        · intro i r hr
          cases i with
          | zero =>
            simp only [List.getElem?_cons_zero, Option.some.injEq] at hr
            subst hr
            simp
          | succ i =>
            simp only [List.getElem?_cons_succ] at hr
            obtain ⟨p1, p2, p3, p4⟩ := hprop i r hr
            simp only [List.length_append, List.length_singleton] at p1 p2 p3 p4
            refine ⟨by omega, by omega, ?_, ?_⟩
            · have := congrArg (List.take q.start.length) p3
              simpa [List.take_take] using this
            · have := congrArg (List.take q.end_.length) p4
              simpa [List.take_take] using this
    · refine ⟨[], ?_, by simp⟩
      simp [getEntriesLoop, hle]

/-- C9, the code at the failing input. Against a server that answers one entry per
request, `getEntries(10, 12)` sends three requests; the query of the second has
the two `start` values 10 and 11 and the two `end` values 12 and 12, and is sent
as `end=12&end=12&start=10&start=11`.  In every run the request of round `i`
(counted from 0) has `i + 1` values under `start` and `i + 1` under `end`. -/
theorem getEntries_query_accumulates :
    getEntries oneEntryServer 5 10 12 =
      (.ok [otherEntry, otherEntry, otherEntry],
        [⟨[10], [12]⟩, ⟨[10, 11], [12, 12]⟩, ⟨[10, 11, 12], [12, 12, 12]⟩]) ∧
    Values.Encode ⟨[10, 11], [12, 12]⟩ = "end=12&end=12&start=10&start=11" ∧
    ∀ (srv : Server) (fuel start end_ i : Nat) (r : Values),
      (getEntries srv fuel start end_).2[i]? = some r →
        r.start.length = i + 1 ∧ r.end_.length = i + 1 := by
  refine ⟨by decide, by decide, ?_⟩
  intro srv fuel start end_ i r hr
  unfold getEntries at hr
  by_cases hgt : start > end_
  · simp [hgt] at hr
  · simp only [if_neg hgt] at hr
    obtain ⟨new, hnew, hprop⟩ := getEntriesLoop_requests srv end_ fuel ⟨[], []⟩ start [] []
    rw [hnew, List.nil_append] at hr
    obtain ⟨p1, p2, _, _⟩ := hprop i r hr
    simp only [List.length_nil] at p1 p2
    omega

/-! ## Termination of `getEntries` -/

theorem getEntriesLoop_oneEntry_max :
    ∀ (fuel : Nat) (q : Values) (cursor : Nat) (all : List Raw_entry) (reqs : List Values),
      cursor < 2 ^ 64 →
      (getEntriesLoop oneEntryServer (2 ^ 64 - 1) fuel q cursor all reqs).1 = .fuel := by
  intro fuel
  induction fuel with
  | zero =>
    intro q cursor all reqs hc
    have hle : cursor ≤ 2 ^ 64 - 1 := by omega
    simp only [getEntriesLoop, if_pos hle]
  | succ fuel ih =>
    intro q cursor all reqs hc
    have hle : cursor ≤ 2 ^ 64 - 1 := by omega
    simp only [getEntriesLoop, if_pos hle, oneEntryServer]
    exact ih _ _ _ _ (Nat.mod_lt _ (by decide))

/-- C8, the claim as stated fails for `end = 2^64 - 1`: with `start = end = 2^64 - 1`
and a server whose every page holds exactly one entry (at least 1 and at most
`end - cursor + 1` for every cursor up to `end`), the cursor wraps to 0 after the
first page and `start <= end` never becomes false: no amount of fuel lets
`getEntries` return. -/
theorem getEntries_counterexample :
    2 ^ 64 - 1 ≤ 2 ^ 64 - 1 ∧
    (∀ (q : Values) (c : Nat), q.start.getLast? = some c → c ≤ 2 ^ 64 - 1 →
      ∃ page, oneEntryServer q = some page ∧ 1 ≤ page.length ∧
        page.length ≤ 2 ^ 64 - 1 - c + 1) ∧
    ∀ fuel, (getEntries oneEntryServer fuel (2 ^ 64 - 1) (2 ^ 64 - 1)).1 = .fuel := by
  refine ⟨Nat.le_refl _, ?_, ?_⟩
  · intro q c _ _
    exact ⟨[otherEntry], rfl, by simp, by simp⟩
  · intro fuel
    have hgt : ¬ (2 ^ 64 - 1 > 2 ^ 64 - 1) := by omega
    simp only [getEntries, if_neg hgt]
    exact getEntriesLoop_oneEntry_max fuel _ _ _ _ (by omega)

theorem getEntriesLoop_spec (srv : Server) (start end_ : Nat) (hend : end_ < 2 ^ 64 - 1)
    (hsrv : ∀ (q : Values) (c : Nat), Sent srv start end_ q → q.start.getLast? = some c →
      ∃ page, srv q = some page ∧ 1 ≤ page.length ∧ page.length ≤ end_ - c + 1) :
    ∀ (fuel : Nat) (q : Values) (cursor : Nat) (all : List Raw_entry) (reqs : List Values),
      cursor ≤ end_ + 1 → end_ + 1 - cursor ≤ fuel →
      (cursor ≤ end_ → Sent srv start end_ ⟨q.start ++ [cursor], q.end_ ++ [end_]⟩) →
      ∃ (pages : List (List Raw_entry)) (new : List Values),
        getEntriesLoop srv end_ fuel q cursor all reqs =
          (.ok (all ++ pages.flatten), reqs ++ new) ∧
        new.length = pages.length ∧
        pages.flatten.length = end_ + 1 - cursor ∧
        ∀ (i : Nat) (r : Values), new[i]? = some r →
          Sent srv start end_ r ∧
          srv r = pages[i]? ∧
          r.start.getLast? = some (cursor + ((pages.take i).flatten).length) ∧
          r.end_.getLast? = some end_ ∧
          cursor + ((pages.take i).flatten).length ≤ end_ := by
  intro fuel
  induction fuel with
  | zero =>
    intro q cursor all reqs hc hf _
    have hle : ¬ cursor ≤ end_ := by omega
    refine ⟨[], [], by simp [getEntriesLoop, hle], rfl, by simp; omega, by simp⟩
  | succ fuel ih =>
    intro q cursor all reqs hc hf hq
    by_cases hle : cursor ≤ end_
    · have hS := hq hle
      obtain ⟨page, hs, hp1, hp2⟩ := hsrv ⟨q.start ++ [cursor], q.end_ ++ [end_]⟩ cursor hS
        (List.getLast?_concat _)
      have hmod : (cursor + page.length) % 2 ^ 64 = cursor + page.length :=
        Nat.mod_eq_of_lt (by omega)
      obtain ⟨pages, new, hrun, hlen, hsum, hprop⟩ :=
        ih ⟨q.start ++ [cursor], q.end_ ++ [end_]⟩ (cursor + page.length) (all ++ page)
          (reqs ++ [⟨q.start ++ [cursor], q.end_ ++ [end_]⟩]) (by omega) (by omega)
          (fun hnext => Sent.next _ cursor page hS hs (List.getLast?_concat _) hnext)
      refine ⟨page :: pages, ⟨q.start ++ [cursor], q.end_ ++ [end_]⟩ :: new, ?_, ?_, ?_, ?_⟩
      · simp only [getEntriesLoop, if_pos hle, hs, hmod, hrun, List.flatten_cons,
          List.append_assoc, List.singleton_append]
      · simp [hlen]
      · simp only [List.flatten_cons, List.length_append, hsum]
        omega
      · intro i r hr
        cases i with
        | zero =>
          simp only [List.getElem?_cons_zero, Option.some.injEq] at hr
          subst hr
          refine ⟨hS, by simp [hs], by simp, by simp, by simp; exact hle⟩
        | succ i =>
          simp only [List.getElem?_cons_succ] at hr
          obtain ⟨p0, p1, p2, p3, p4⟩ := hprop i r hr
          refine ⟨p0, by simpa using p1, ?_, p3, ?_⟩
          · rw [p2]
            simp only [List.take_succ_cons, List.flatten_cons, List.length_append,
              Nat.add_assoc]
          · simp only [List.take_succ_cons, List.flatten_cons, List.length_append]
            omega
    · have hce : cursor = end_ + 1 := by omega
      refine ⟨[], [], by simp [getEntriesLoop, hle], rfl, by simp; omega, by simp⟩

/-- C8, amended. For `start <= end` with `end < 2^64 - 1`, if every page the server
returns for a request that `getEntries` sends, with cursor `c`, holds at least
1 and at most `end - c + 1` entries, then `getEntries`, given `end - start + 1`
rounds or more, returns the concatenation of the pages in order, which has
exactly `end - start + 1` entries; the request of each round carries as its
last `start` value the original `start` plus the number of entries received
before it, a number below `end - start + 1`, and `end` as its last `end` value;
and when the first page holds `end - start + 1` entries the server is asked
once. -/
theorem getEntries_spec (srv : Server) (start end_ fuel : Nat) (hse : start ≤ end_)
    (hend : end_ < 2 ^ 64 - 1)
    (hsrv : ∀ (q : Values) (c : Nat), Sent srv start end_ q → q.start.getLast? = some c →
      ∃ page, srv q = some page ∧ 1 ≤ page.length ∧ page.length ≤ end_ - c + 1)
    (hfuel : end_ - start + 1 ≤ fuel) :
    (∃ (pages : List (List Raw_entry)) (reqs : List Values),
      getEntries srv fuel start end_ = (.ok pages.flatten, reqs) ∧
      reqs.length = pages.length ∧
      pages.flatten.length = end_ - start + 1 ∧
      ∀ (i : Nat) (r : Values), reqs[i]? = some r →
        Sent srv start end_ r ∧
        srv r = pages[i]? ∧
        r.start.getLast? = some (start + ((pages.take i).flatten).length) ∧
        r.end_.getLast? = some end_ ∧
        ((pages.take i).flatten).length < end_ - start + 1) ∧
    (∀ page, srv ⟨[start], [end_]⟩ = some page → page.length = end_ - start + 1 →
      getEntries srv fuel start end_ = (.ok page, [⟨[start], [end_]⟩])) := by
  have hgt : ¬ start > end_ := by omega
  constructor
  · obtain ⟨pages, new, hrun, hlen, hsum, hprop⟩ :=
      getEntriesLoop_spec srv start end_ hend hsrv fuel ⟨[], []⟩ start [] [] (by omega)
        (by omega) (fun _ => Sent.first)
    refine ⟨pages, new, ?_, hlen, by omega, ?_⟩
    · simp only [getEntries, if_neg hgt, hrun, List.nil_append]
    · intro i r hr
      obtain ⟨p0, p1, p2, p3, p4⟩ := hprop i r hr
      exact ⟨p0, p1, p2, p3, by omega⟩
  · intro page hs hlen
    obtain ⟨f, rfl⟩ : ∃ f, fuel = f + 1 := ⟨fuel - 1, by omega⟩
    have hmod : (start + page.length) % 2 ^ 64 = end_ + 1 := by
      rw [Nat.mod_eq_of_lt (by omega)]
      omega
    have hstop : ¬ end_ + 1 ≤ end_ := by omega
    simp only [getEntries, if_neg hgt, getEntriesLoop, if_pos hse, List.nil_append, hs, hmod]
    cases f with
    | zero => simp only [getEntriesLoop, if_neg hstop]
    | succ f => simp only [getEntriesLoop, if_neg hstop]

theorem sent_last (srv : Server) (start end_ : Nat) (hse : start ≤ end_) (q : Values)
    (h : Sent srv start end_ q) :
    ∃ c e, q.start.getLast? = some c ∧ q.end_.getLast? = some e ∧ c ≤ end_ ∧ e = end_ := by
  cases h with
  | first => exact ⟨start, end_, rfl, rfl, hse, rfl⟩
  | next q0 c page _ _ _ hle =>
    exact ⟨c + page.length, end_, List.getLast?_concat _, List.getLast?_concat _, hle, rfl⟩

theorem fullServer_pages (start end_ : Nat) (hse : start ≤ end_) :
    ∀ (q : Values) (c : Nat), Sent fullServer start end_ q → q.start.getLast? = some c →
      ∃ page, fullServer q = some page ∧ 1 ≤ page.length ∧ page.length ≤ end_ - c + 1 := by
  intro q c hq hc
  obtain ⟨c2, e, h1, h2, h3, h4⟩ := sent_last fullServer start end_ hse q hq
  rw [h1] at hc
  obtain rfl : c2 = c := Option.some.inj hc
  subst h4
  refine ⟨List.replicate (e + 1 - c2) otherEntry, ?_, ?_, ?_⟩
  · simp only [fullServer, h1, h2]
  · rw [List.length_replicate]; omega
  · rw [List.length_replicate]; omega

theorem exampleServer_sent (q : Values) (h : Sent exampleServer 10 12 q) :
    q = ⟨[10], [12]⟩ := by
  induction h with
  | first => rfl
  | next q0 c page _ hs hc hle ih =>
    subst ih
    have hpage : page.length = 3 := by
      have h3 : exampleServer ⟨[10], [12]⟩ = some [otherEntry, watchedEntry, otherEntry] := by
        decide
      rw [h3] at hs
      rw [← Option.some.inj hs]
      rfl
    have hc10 : c = 10 := (Option.some.inj hc).symm
    omega

theorem exampleServer_pages :
    ∀ (q : Values) (c : Nat), Sent exampleServer 10 12 q → q.start.getLast? = some c →
      ∃ page, exampleServer q = some page ∧ 1 ≤ page.length ∧ page.length ≤ 12 - c + 1 := by
  intro q c hq hc
  rw [exampleServer_sent q hq] at hc ⊢
  obtain rfl : 10 = c := Option.some.inj hc
  exact ⟨[otherEntry, watchedEntry, otherEntry], by decide, by decide, by decide⟩

theorem getEntries_spec_witness :
    (∃ (pages : List (List Raw_entry)) (reqs : List Values),
      getEntries oneEntryServer 3 10 12 = (.ok pages.flatten, reqs) ∧
      reqs.length = pages.length ∧ pages.flatten.length = 3) ∧
    getEntries fullServer 3 10 12 =
      (.ok [otherEntry, otherEntry, otherEntry], [⟨[10], [12]⟩]) ∧
    getEntries exampleServer 3 10 12 =
      (.ok [otherEntry, watchedEntry, otherEntry], [⟨[10], [12]⟩]) :=
  ⟨(getEntries_spec oneEntryServer 10 12 3 (by decide) (by decide)
      (fun _ c _ _ => ⟨[otherEntry], rfl, by simp, by simp⟩) (by decide)).1.imp
        (fun _ h => h.imp (fun _ h2 => ⟨h2.1, h2.2.1, h2.2.2.1⟩)),
    (getEntries_spec fullServer 10 12 3 (by decide) (by decide)
      (fullServer_pages 10 12 (by decide)) (by decide)).2
        [otherEntry, otherEntry, otherEntry] (by decide) (by decide),
    (getEntries_spec exampleServer 10 12 3 (by decide) (by decide)
      exampleServer_pages (by decide)).2
        [otherEntry, watchedEntry, otherEntry] (by decide) (by decide)⟩

/-! ## The head check without growth -/

/-- C11. When the fetched head has the tree size of the current head, `Check`
sends no request and returns the monitor exactly as it was, head included; the
same when the fetch of the head fails; and a second `Check` under the same
condition, run on what the first returned, again returns that monitor. -/
theorem Check_same_size (pc : List Nat → Except String String) (srv : Server) (fuel : Nat)
    (m : Monitor) (new_sth new_sth2 : Signed_tree_head) (e : String)
    (h : new_sth.Tree_size = m.tree_head.Tree_size)
    (h2 : new_sth2.Tree_size = m.tree_head.Tree_size) :
    Check pc srv fuel (.ok new_sth) m = (.ok m, ⟨[], []⟩) ∧
    Check pc srv fuel (.error e) m = (.ok m, ⟨[], []⟩) ∧
    (∀ m1 t1, Check pc srv fuel (.ok new_sth) m = (.ok m1, t1) →
      Check pc srv fuel (.ok new_sth2) m1 = (.ok m, ⟨[], []⟩) ∧
      Check pc srv fuel (.error e) m1 = (.ok m, ⟨[], []⟩)) := by
  have hsame : ∀ s : Signed_tree_head, s.Tree_size = m.tree_head.Tree_size →
      Check pc srv fuel (.ok s) m = (.ok m, ⟨[], []⟩) := by
    intro s hs
    have hne : ¬ s.Tree_size ≠ m.tree_head.Tree_size := fun hn => hn hs
    simp only [Check, if_neg hne]
  refine ⟨hsame new_sth h, rfl, ?_⟩
  intro m1 t1 h1
  rw [hsame new_sth h] at h1
  simp only [Prod.mk.injEq, Res.ok.injEq] at h1
  rw [← h1.1]
  exact ⟨hsame new_sth2 h2, rfl⟩

theorem Check_same_size_witness :
    Check exampleParseCertificate exampleServer 5 (.ok ⟨13, 99, "root", "signature"⟩)
        (exampleMonitor 13) = (.ok (exampleMonitor 13), ⟨[], []⟩) ∧
    (exampleMonitor 13).tree_head = ⟨13, 0, "", ""⟩ ∧
    Check exampleParseCertificate exampleServer 5 (.error "connection refused")
        (exampleMonitor 13) = (.ok (exampleMonitor 13), ⟨[], []⟩) :=
  ⟨(Check_same_size exampleParseCertificate exampleServer 5 (exampleMonitor 13)
      ⟨13, 99, "root", "signature"⟩ (headOfSize 13) "connection refused" rfl rfl).1,
    rfl,
    (Check_same_size exampleParseCertificate exampleServer 5 (exampleMonitor 13)
      ⟨13, 99, "root", "signature"⟩ (headOfSize 13) "connection refused" rfl rfl).2.1⟩

/-! ## The bound of the scan -/

theorem min64_le_right (a b : Nat) : min64 a b ≤ b := by
  unfold min64
  split <;> omega

theorem min64_le_left (a b : Nat) : min64 a b ≤ a := by
  unfold min64
  split <;> omega

theorem addEntriesLoop_calls_le (pc : List Nat → Except String String) (srv : Server)
    (g max : Nat) :
    ∀ (fuel start : Nat) (m : Monitor) (t : Trace),
      (∀ c ∈ t.calls, c.1 ≤ max ∧ c.2 ≤ max) →
      ∀ c ∈ (addEntriesLoop pc srv g max fuel start m t).2.calls, c.1 ≤ max ∧ c.2 ≤ max := by
  intro fuel
  induction fuel with
  | zero =>
    intro start m t ht
    by_cases hle : start ≤ max
    · simpa only [addEntriesLoop, if_pos hle] using ht
    · simpa only [addEntriesLoop, if_neg hle] using ht
  | succ fuel ih =>
    intro start m t ht
    by_cases hle : start ≤ max
    · have hext : ∀ reqs : List Values,
          ∀ c ∈ (⟨t.calls ++ [(start, min64 ((start + REQUEST_SIZE) % 2 ^ 64) max)],
            t.requests ++ reqs⟩ : Trace).calls, c.1 ≤ max ∧ c.2 ≤ max := by
        intro reqs c hc
        rcases List.mem_append.1 hc with h | h
        · exact ht c h
        · rw [List.mem_singleton.1 h]
          exact ⟨hle, min64_le_right _ _⟩
      simp only [addEntriesLoop, if_pos hle]
      rcases hg : getEntries srv g start (min64 ((start + REQUEST_SIZE) % 2 ^ 64) max)
        with ⟨r, reqs⟩
      cases r with
      | ok entries =>
        simp only
        cases hp : processEntries pc m entries with
        | ok ma => exact ih _ ma _ (hext reqs)
        | err e => exact hext reqs
        | crash => exact hext reqs
        | fatal => exact hext reqs
        | fuel => exact hext reqs
      | err e => exact hext reqs
      | crash => exact hext reqs
      | fatal => exact hext reqs
      | fuel => exact hext reqs
    · simpa only [addEntriesLoop, if_neg hle] using ht

/-- C12, the code at the failing input. A monitor whose head has tree size 0 is asked
to scan `[0, 5]`: `Tree_size - 1` wraps to `2^64 - 1`, the bound is 5 and the
log is asked for the entries 0 to 5; `buildDB` on the same monitor asks for the
entries 0 to 1024.  The defect is confined to tree size 0: for a tree size from
1 to `2^64 - 1` every range handed to `getEntries` ends below the tree size and at
or below `end`. -/
theorem addEntries_tree_size_zero :
    addEntries exampleParseCertificate failingServer 3 (exampleMonitor 0) 0 5 =
      (.fatal, ⟨[(0, 5)], [⟨[0], [5]⟩]⟩) ∧
    buildDB exampleParseCertificate failingServer 3 (exampleMonitor 0) =
      (.fatal, ⟨[(0, 1024)], [⟨[0], [1024]⟩]⟩) ∧
    ∀ (pc : List Nat → Except String String) (srv : Server) (fuel : Nat) (m : Monitor)
      (start end_ : Nat), 1 ≤ m.tree_head.Tree_size → m.tree_head.Tree_size < 2 ^ 64 →
      ∀ c ∈ (addEntries pc srv fuel m start end_).2.calls,
        c.2 < m.tree_head.Tree_size ∧ c.2 ≤ end_ := by
  refine ⟨rfl, rfl, ?_⟩
  intro pc srv fuel m start end_ h1 h2 c hc
  have hb := addEntriesLoop_calls_le pc srv fuel
    (min64 ((m.tree_head.Tree_size + 2 ^ 64 - 1) % 2 ^ 64) end_) fuel start m ⟨[], []⟩
    (by simp) c hc
  have hl := min64_le_left ((m.tree_head.Tree_size + 2 ^ 64 - 1) % 2 ^ 64) end_
  have hr := min64_le_right ((m.tree_head.Tree_size + 2 ^ 64 - 1) % 2 ^ 64) end_
  have hmod : (m.tree_head.Tree_size + 2 ^ 64 - 1) % 2 ^ 64 = m.tree_head.Tree_size - 1 := by
    omega
  omega

/-! ## Removing a hostname -/

theorem removeHostnameLoop_no_match (h : String) :
    ∀ (rounds i : Nat) (arr : List String) (len : Nat), i + rounds ≤ arr.length →
      (∀ x ∈ arr.drop i, x ≠ h) →
      removeHostnameLoop h rounds i arr len = .ok (arr.take len) := by
  intro rounds
  induction rounds with
  | zero => intro i arr len _ _; rfl
  | succ rounds ih =>
    intro i arr len hlen hall
    have hi : i < arr.length := by omega
    have hd : arr.drop i = arr[i] :: arr.drop (i + 1) := List.drop_eq_getElem_cons hi
    have hne : arr.getD i "" ≠ h := by
      rw [List.getD_eq_getElem _ _ hi]
      exact hall _ (by rw [hd]; exact List.mem_cons_self _ _)
    simp only [removeHostnameLoop, if_neg hne]
    exact ih (i + 1) arr len (by omega)
      (fun x hx => hall x (by rw [hd]; exact List.mem_cons_of_mem _ hx))

theorem removeHostnameLoop_skip (h : String) (rest : List String) (len rounds : Nat) :
    ∀ (pre front : List String), (∀ x ∈ pre, x ≠ h) →
      removeHostnameLoop h (pre.length + rounds) front.length (front ++ (pre ++ rest)) len =
        removeHostnameLoop h rounds (front.length + pre.length) (front ++ (pre ++ rest)) len := by
  intro pre
  induction pre with
  | nil => intro front _; simp
  | cons a pre ih =>
    intro front hall
    have hget : (front ++ (a :: pre ++ rest)).getD front.length "" = a := by
      rw [List.getD_eq_getElem?_getD, List.getElem?_append_right (Nat.le_refl _)]
      simp
    have hne : a ≠ h := hall a (List.mem_cons_self _ _)
    have hr : (a :: pre).length + rounds = (pre.length + rounds) + 1 := by
      simp only [List.length_cons]
      omega
    rw [hr]
    simp only [removeHostnameLoop, hget, if_neg hne]
    have hih := ih (front ++ [a]) (fun x hx => hall x (List.mem_cons_of_mem _ hx))
    simp only [List.length_append, List.length_singleton, List.append_assoc,
      List.singleton_append] at hih
    rw [List.cons_append, hih, List.length_cons]
    congr 1
    omega

theorem removeHostnameLoop_single (h : String) (pre post : List String)
    (hpre : ∀ x ∈ pre, x ≠ h) (hpost : ∀ x ∈ post, x ≠ h) :
    removeHostnameLoop h (pre ++ h :: post).length 0 (pre ++ h :: post)
      (pre ++ h :: post).length = .ok (pre ++ post) := by
  have hlen : (pre ++ h :: post).length = pre.length + (post.length + 1) := by simp
  have hskip := removeHostnameLoop_skip h (h :: post) (pre ++ h :: post).length
    (post.length + 1) pre [] hpre
  simp only [List.nil_append, List.length_nil, Nat.zero_add] at hskip
  rw [hlen] at hskip ⊢
  rw [hskip]
  have hget : (pre ++ h :: post).getD pre.length "" = h := by
    rw [List.getD_eq_getElem?_getD, List.getElem?_append_right (Nat.le_refl _)]
    simp
  have hnot : ¬ pre.length + (post.length + 1) < pre.length + 1 := by omega
  simp only [removeHostnameLoop, hget, if_true, if_neg hnot]
  have e1 : List.take pre.length (pre ++ h :: post) = pre := List.take_left _ _
  have e2 : List.drop (pre.length + 1) (pre ++ h :: post) = post := by
    rw [List.drop_append]
    rfl
  have e3 : pre.length + (post.length + 1) - (pre.length + 1) = post.length := by omega
  have e4 : pre.length + (post.length + 1) - 1 = pre.length + post.length := by omega
  have e5 : List.drop (pre.length + post.length) (pre ++ h :: post) =
      List.drop post.length (h :: post) := List.drop_append _
  rw [e1, e2, e3, e4, e5, List.take_length]
  have htail : (List.drop post.length (h :: post)).length = 1 := by
    simp only [List.length_drop, List.length_cons]
    omega
  rw [removeHostnameLoop_no_match h post.length (pre.length + 1)
    (pre ++ post ++ List.drop post.length (h :: post)) (pre.length + post.length)]
  · rw [List.take_left' (by simp)]
  · simp only [List.length_append, htail]
    omega
  · intro x hx
    rw [List.append_assoc, List.drop_append] at hx
    cases post with
    | nil => simp at hx
    | cons b post1 =>
      have hx2 := List.mem_of_mem_drop hx
      rcases List.mem_append.1 hx2 with h1 | h1
      · exact hpost x h1
      · rw [List.length_cons, List.drop_succ_cons] at h1
        exact hpost x (List.mem_of_mem_drop h1)

theorem removeHostnameLoop_absent (h : String) (l : List String) (habs : h ∉ l) :
    removeHostnameLoop h l.length 0 l l.length = .ok l := by
  rw [removeHostnameLoop_no_match h l.length 0 l l.length (by omega)
    (fun x hx hxh => habs (hxh ▸ List.mem_of_mem_drop hx)), List.take_length]

/-- C13, the code at the failing input. Two `--hostname a.example` flags give the
watch-list `[a.example, a.example]`; `removeHostname("a.example")` removes the
first in round 0 and in round 1 finds `a.example` again at position 1 of the
array and slices `m.hostnames[2:]` on a list of length 1: a run-time panic.  On
`[h, h, a]` it returns normally and leaves `[h, a]`, with one `h` still in the
list.  On a watch-list in which the hostname occurs once it is removed and the
other entries keep their order, and a hostname that is absent leaves the
monitor as it was. -/
theorem removeHostname_duplicates :
    list_flags_Set (list_flags_Set [] "a.example") "a.example" = ["a.example", "a.example"] ∧
    removeHostname { exampleMonitor 13 with hostnames := ["a.example", "a.example"] }
      "a.example" = .crash ∧
    removeHostname { exampleMonitor 13 with hostnames := ["h", "a", "h"] } "h" = .crash ∧
    (∃ m1, removeHostname { exampleMonitor 13 with hostnames := ["h", "h", "a"] } "h" = .ok m1 ∧
      m1.hostnames = ["h", "a"]) ∧
    (∀ (m : Monitor) (h : String) (pre post : List String), m.hostnames = pre ++ h :: post →
      h ∉ pre → h ∉ post → removeHostname m h = .ok { m with hostnames := pre ++ post }) ∧
    (∀ (m : Monitor) (h : String), h ∉ m.hostnames → removeHostname m h = .ok m) := by
  refine ⟨by decide, rfl, rfl, ⟨_, rfl, rfl⟩, ?_, ?_⟩
  · intro m h pre post hm hpre hpost
    unfold removeHostname
    rw [hm, removeHostnameLoop_single h pre post (fun x hx hxh => hpre (hxh ▸ hx))
      (fun x hx hxh => hpost (hxh ▸ hx))]
  · intro m h habs
    unfold removeHostname
    rw [removeHostnameLoop_absent h m.hostnames habs]

/-! ## Adding hostnames -/

theorem addHostnames_eq (new_hostnames : List String) :
    ∀ m : Monitor, ∃ suf : List String,
      addHostnames m new_hostnames = { m with hostnames := m.hostnames ++ suf } ∧
      (∀ x, x ∈ suf ↔ x ∈ new_hostnames ∧ x ∉ m.hostnames) ∧
      suf.Pairwise (fun x y => new_hostnames.indexOf x < new_hostnames.indexOf y) := by
  induction new_hostnames with
  | nil =>
    intro m
    refine ⟨[], ?_, by simp, List.Pairwise.nil⟩
    simp [addHostnames]
  | cons e rest ih =>
    intro m
    by_cases hidx : index m.hostnames e = -1
    · have habs : e ∉ m.hostnames := (index_eq_neg_one_iff _ _).1 hidx
      obtain ⟨suf, heq, hmem, hpw⟩ := ih { m with hostnames := m.hostnames ++ [e] }
      have hne : ∀ y ∈ suf, y ≠ e := by
        intro y hy h
        exact ((hmem y).1 hy).2 (by simp [h])
      refine ⟨e :: suf, ?_, ?_, ?_⟩
      · simp only [addHostnames, if_pos hidx, heq, List.append_assoc, List.singleton_append]
      · intro x
        have hmem2 : x ∈ suf ↔ x ∈ rest ∧ x ∉ m.hostnames ∧ x ≠ e := by
          rw [hmem x]
          simp [not_or]
        rw [List.mem_cons, List.mem_cons, hmem2]
        constructor
        · rintro (h | ⟨h1, h2, _⟩)
          · exact ⟨Or.inl h, h ▸ habs⟩
          · exact ⟨Or.inr h1, h2⟩
        · rintro ⟨h1 | h1, h2⟩
          · exact Or.inl h1
          · by_cases hxe : x = e
            · exact Or.inl hxe
            · exact Or.inr ⟨h1, h2, hxe⟩
      · rw [List.pairwise_cons]
        constructor
        · intro y hy
          rw [List.indexOf_cons_self, List.indexOf_cons_ne _ (Ne.symm (hne y hy))]
          omega
        · refine hpw.imp_of_mem ?_
          intro x y hx hy hlt
          rw [List.indexOf_cons_ne _ (Ne.symm (hne x hx)),
            List.indexOf_cons_ne _ (Ne.symm (hne y hy))]
          omega
    · have hpres : e ∈ m.hostnames := by
        by_contra h
        exact hidx ((index_eq_neg_one_iff _ _).2 h)
      obtain ⟨suf, heq, hmem, hpw⟩ := ih m
      have hne : ∀ y ∈ suf, y ≠ e := by
        intro y hy h
        exact ((hmem y).1 hy).2 (h ▸ hpres)
      refine ⟨suf, ?_, ?_, ?_⟩
      · simp only [addHostnames, if_neg hidx, heq]
      · intro x
        simp only [List.mem_cons, hmem]
        constructor
        · rintro ⟨h1, h2⟩
          exact ⟨Or.inr h1, h2⟩
        · rintro ⟨h1 | h1, h2⟩
          · exact absurd (h1 ▸ hpres) h2
          · exact ⟨h1, h2⟩
      · refine hpw.imp_of_mem ?_
        intro x y hx hy hlt
        rw [List.indexOf_cons_ne _ (Ne.symm (hne x hx)),
          List.indexOf_cons_ne _ (Ne.symm (hne y hy))]
        omega

/-- C14. `addHostnames` changes only the watch-list, and the new watch-list is the
old one followed by a list `suf` that holds exactly the new hostnames that were
not in the old list, each once, in the order of their first occurrence in the
argument.  A watch-list without repetition stays without repetition, and adding
hostnames that are all present leaves the monitor as it was. -/
theorem addHostnames_spec (m : Monitor) (new_hostnames : List String) :
    (∃ suf : List String,
      addHostnames m new_hostnames = { m with hostnames := m.hostnames ++ suf } ∧
      (∀ x, x ∈ suf ↔ x ∈ new_hostnames ∧ x ∉ m.hostnames) ∧
      suf.Nodup ∧
      suf.Pairwise (fun x y => new_hostnames.indexOf x < new_hostnames.indexOf y)) ∧
    (m.hostnames.Nodup → (addHostnames m new_hostnames).hostnames.Nodup) ∧
    ((∀ x ∈ new_hostnames, x ∈ m.hostnames) → addHostnames m new_hostnames = m) ∧
    (addHostnames (exampleMonitor 13) ["x", "watched.example.com", "y", "x"]).hostnames =
      ["watched.example.com", "x", "y"] := by
  obtain ⟨suf, heq, hmem, hpw⟩ := addHostnames_eq new_hostnames m
  have hnd : suf.Nodup := hpw.imp (fun h => Nat.ne_of_lt h |> fun hne heq => hne (by rw [heq]))
  refine ⟨⟨suf, heq, hmem, hnd, hpw⟩, ?_, ?_, by decide⟩
  · intro hm
    rw [heq]
    refine List.nodup_append.2 ⟨hm, hnd, ?_⟩
    intro x hx hs
    exact ((hmem x).1 hs).2 hx
  · intro hall
    have hnil : suf = [] := by
      rw [List.eq_nil_iff_forall_not_mem]
      intro x hx
      exact ((hmem x).1 hx).2 (hall x ((hmem x).1 hx).1)
    rw [heq, hnil, List.append_nil]

/-! ## The windows of the scan -/

theorem getEntries_fullServer (fuel s e : Nat) (hse : s ≤ e) (he : e + 1 < 2 ^ 64)
    (hf : 1 ≤ fuel) :
    getEntries fullServer fuel s e =
      (.ok (List.replicate (e + 1 - s) otherEntry), [⟨[s], [e]⟩]) := by
  obtain ⟨f, rfl⟩ : ∃ f, fuel = f + 1 := ⟨fuel - 1, by omega⟩
  have hgt : ¬ s > e := by omega
  have hmod : (s + (List.replicate (e + 1 - s) otherEntry).length) % 2 ^ 64 = e + 1 := by
    rw [List.length_replicate, Nat.mod_eq_of_lt (by omega)]
    omega
  have hstop : ¬ e + 1 ≤ e := by omega
  have hsrv : fullServer ⟨[s], [e]⟩ = some (List.replicate (e + 1 - s) otherEntry) := rfl
  simp only [getEntries, if_neg hgt, getEntriesLoop, if_pos hse, hsrv, hmod, List.nil_append]
  cases f with
  | zero => simp only [getEntriesLoop, if_neg hstop]
  | succ f => simp only [getEntriesLoop, if_neg hstop]

theorem processEntries_otherEntry (k n : Nat) :
    processEntries exampleParseCertificate (exampleMonitor k) (List.replicate n otherEntry) =
      .ok (exampleMonitor k) := by
  induction n with
  | zero => rfl
  | succ n ih =>
    have hm : entryMatch exampleParseCertificate ["watched.example.com"] false otherEntry =
        .ok none := by decide
    have e1 : (exampleMonitor k).hostnames = ["watched.example.com"] := rfl
    have e2 : (exampleMonitor k).NON_STRICT = false := rfl
    have hstep : processEntry exampleParseCertificate (exampleMonitor k) otherEntry =
        .ok (exampleMonitor k) := by
      rw [processEntry_eq, e1, e2, hm]
    simp only [List.replicate_succ, processEntries, hstep, ih]

theorem addEntriesLoop_fullServer_step (g max fuel start k : Nat) (t : Trace) (hg : 1 ≤ g)
    (hle : start ≤ max) (hmax : max + 1 < 2 ^ 64) (hstart : start + REQUEST_SIZE < 2 ^ 64) :
    addEntriesLoop exampleParseCertificate fullServer g max (fuel + 1) start (exampleMonitor k) t =
      addEntriesLoop exampleParseCertificate fullServer g max fuel (start + REQUEST_SIZE)
        (exampleMonitor k)
        ⟨t.calls ++ [(start, min64 (start + REQUEST_SIZE) max)],
          t.requests ++ [⟨[start], [min64 (start + REQUEST_SIZE) max]⟩]⟩ := by
  have hfin : start ≤ min64 (start + REQUEST_SIZE) max := by
    unfold min64
    split <;> omega
  have hfin2 : min64 (start + REQUEST_SIZE) max + 1 < 2 ^ 64 := by
    have := min64_le_right (start + REQUEST_SIZE) max
    omega
  simp only [addEntriesLoop, if_pos hle, Nat.mod_eq_of_lt hstart,
    getEntries_fullServer g start _ hfin hfin2 hg, processEntries_otherEntry]

/-- C15, the code at the failing input. A monitor whose head has tree size 1026 scans
`[0, 1025]` against a server that never truncates.  `getEntries` is called with
the ranges `[0, 1024]` and `[1024, 1025]`: the first asks for 1025 entries, one
more than `REQUEST_SIZE`, and the index 1024 lies in both ranges, so that entry
is fetched twice. -/
theorem addEntries_windows_overlap :
    addEntries exampleParseCertificate fullServer 3 (exampleMonitor 1026) 0 1025 =
      (.ok (exampleMonitor 1026),
        ⟨[(0, 1024), (1024, 1025)], [⟨[0], [1024]⟩, ⟨[1024], [1025]⟩]⟩) ∧
    REQUEST_SIZE < 1024 - 0 + 1 ∧ (0 ≤ 1024 ∧ 1024 ≤ 1024) ∧ (1024 ≤ 1024 ∧ 1024 ≤ 1025) := by
  refine ⟨?_, by decide, by decide, by decide⟩
  have hmax : min64 (((exampleMonitor 1026).tree_head.Tree_size + 2 ^ 64 - 1) % 2 ^ 64) 1025 =
      1025 := by decide
  unfold addEntries
  rw [hmax]
  rw [addEntriesLoop_fullServer_step 3 1025 2 0 1026 ⟨[], []⟩ (by decide) (by decide)
    (by decide) (by decide)]
  rw [addEntriesLoop_fullServer_step 3 1025 1 (0 + REQUEST_SIZE) 1026 _ (by decide) (by decide)
    (by decide) (by decide)]
  rw [addEntriesLoop_of_lt _ _ _ _ _ _ _ _ (by decide)]
  rfl

/-! ## The empty hostname -/

theorem isSubstring_empty (w : String) : IsSubstring "" w :=
  ⟨[], w.data, rfl⟩

/-- C16. When the watch-list holds the empty string at position `j`,
`indexNonStrict` returns, for every common name `w`, an entry of the list with
its index `i`, where `i <= j`, and never `-1`; on the list `[""]` it returns
`("", 0)`.  `addHostnames` puts the empty string on the watch-list when it is
among the new hostnames, and `AddHostname` with the value
`a.example,,b.example` adds it. -/
theorem indexNonStrict_empty_hostname (array : List String) (w : String) (j : Nat) (m : Monitor)
    (new_hostnames : List String) (h : array[j]? = some "") :
    (∃ (i : Nat) (entry : String), i ≤ j ∧ array[i]? = some entry ∧
      indexNonStrict array w = (entry, (i : Int))) ∧
    (indexNonStrict array w).2 ≠ -1 ∧
    indexNonStrict [""] w = ("", 0) ∧
    ("" ∈ new_hostnames → "" ∈ (addHostnames m new_hostnames).hostnames) ∧
    stringsSplitComma "a.example,,b.example" = ["a.example", "", "b.example"] ∧
    (AddHostname (nonStrictMonitor ["watched.example.com"]) "a.example,,b.example").hostnames =
      ["watched.example.com", "a.example", "", "b.example"] := by
  have hfirst : ∃ (i : Nat) (entry : String), i ≤ j ∧ array[i]? = some entry ∧
      indexNonStrict array w = (entry, (i : Int)) := by
    rcases indexNonStrictFrom_spec w array 0 with ⟨i, entry, hget, hres, _, hmin⟩ | ⟨hall, _⟩
    · refine ⟨i, entry, ?_, hget, by simpa only [indexNonStrict, zero_add] using hres⟩
      by_contra hlt
      exact hmin j "" (by omega) h (isSubstring_empty w)
    · exact absurd (isSubstring_empty w) (hall "" (List.getElem?_mem h))
  refine ⟨hfirst, ?_, ?_, ?_, by decide, by decide⟩
  · obtain ⟨i, entry, _, _, hres⟩ := hfirst
    rw [hres]
    show (i : Int) ≠ -1
    omega
  · have hc : stringsContains w "" = true := (stringsContains_iff w "").2 (isSubstring_empty w)
    simp only [indexNonStrict, indexNonStrictFrom, hc, if_true]
  · intro hin
    obtain ⟨suf, heq, hmem, _⟩ := addHostnames_eq new_hostnames m
    rw [heq]
    by_cases hold : "" ∈ m.hostnames
    · exact List.mem_append_left _ hold
    · exact List.mem_append_right _ ((hmem "").2 ⟨hin, hold⟩)

theorem indexNonStrict_empty_hostname_witness :
    (["watched.example.com", ""] : List String)[1]? = some "" ∧
    (indexNonStrict ["watched.example.com", ""] "other.example.org").2 ≠ -1 ∧
    indexNonStrict ["watched.example.com", ""] "other.example.org" = ("", 1) ∧
    (∃ m1, processEntry exampleParseCertificate (nonStrictMonitor [""]) otherEntry = .ok m1 ∧
      m1.database = [⟨7, "other.example.org", "AAACMAI=", "X509"⟩] ∧
      m1.certificate_metrics "" "X509" = 1) :=
  ⟨rfl,
    (indexNonStrict_empty_hostname ["watched.example.com", ""] "other.example.org" 1
      (exampleMonitor 13) [] rfl).2.1,
    by decide, ⟨_, rfl, rfl, rfl⟩⟩

end CTMonitor
